import Mathlib

/-!
# Sokoban solver: shallow embedding and verification

A shallow embedding of the Sokoban solver's core (`game_engine.py`,
`ai_agent.py`): the puzzle state, the move rules, level parsing and
validation, the heuristic, the three graph searches, the greedy fallback
and the controller.  Python sets become `Finset`s (order-independent),
grid coordinates become `ℤ × ℤ` (Python ints; intermediate coordinates may
be negative before the bounds check), and in-place mutation of `GameState`
becomes explicit state passing: a method that mutates `self` and returns a
`bool` is embedded as a function returning the updated state together with
that `bool`.  Wall-clock fields (`start_time`, `end_time`; also
`player_id` and the cached `initial_state` hash, which the search core
never reads) are outside the model; the `is_playing` flag is kept because
`move` sets it.  The time checks `time.time() - start_time > max_time`
inside the search loops are abstracted by a boolean oracle indexed by the
iteration number.
-/

namespace Sokoban

/-- Grid position, Python `(x, y)` tuple of ints. -/
abbrev Pos := ℤ × ℤ

/-- The `Tile` enum of `game_engine.py`. -/
inductive Tile where
  | EMPTY | WALL | TARGET | CRATE | CRATE_ON_TARGET | PLAYER | PLAYER_ON_TARGET
  deriving DecidableEq, Repr

/-- The `Direction` enum of `game_engine.py`. -/
inductive Direction where
  | UP | DOWN | LEFT | RIGHT
  deriving DecidableEq, Repr

/-- The `(dx, dy)` value of each direction. -/
def Direction.val : Direction → ℤ × ℤ
  | .UP => (0, -1)
  | .DOWN => (0, 1)
  | .LEFT => (-1, 0)
  | .RIGHT => (1, 0)

/-- Python `for direction in Direction:` iterates in enum declaration order. -/
def dirList : List Direction := [.UP, .DOWN, .LEFT, .RIGHT]

/-- The `GameState` class of `game_engine.py` (dynamic and static fields; wall-clock
timestamps and `player_id` are outside the model). -/
structure GameState where
  player_pos : Pos
  crates : Finset Pos
  targets : Finset Pos
  grid : List (List Tile)
  width : ℕ
  height : ℕ
  moves : ℕ
  pushes : ℕ
  isPlaying : Bool
  deriving DecidableEq

/-- Access `grid[y][x]` — callers access it only after a bounds check, so the
out-of-range default is never observed on the states the code builds. -/
def tileAt (g : List (List Tile)) (x y : ℤ) : Tile :=
  if 0 ≤ x ∧ 0 ≤ y then (g.getD y.toNat []).getD x.toNat Tile.EMPTY else Tile.EMPTY

/-- Embeds `GameState._in_bounds`. -/
def inBounds (s : GameState) (p : Pos) : Prop :=
  0 ≤ p.1 ∧ p.1 < (s.width : ℤ) ∧ 0 ≤ p.2 ∧ p.2 < (s.height : ℤ)

instance (s : GameState) (p : Pos) : Decidable (inBounds s p) := by
  unfold inBounds; infer_instance

/-- Embeds `GameState.is_solved`. -/
def isSolved (s : GameState) : Bool := s.crates = s.targets

/-- Embeds `GameState._get_state_hash`: the canonical key
`(player_pos, frozenset(crate_positions))`. -/
def stateHash (s : GameState) : Pos × Finset Pos := (s.player_pos, s.crates)

/-- Embeds `GameState.move`.  The Python method mutates `self` and returns a
`bool`; here the updated state is returned with the `bool`.  On entry the
method calls `start_playing`, which sets `is_playing` (its wall-clock
timestamp is outside the model); the solved-check that stamps `end_time`
is likewise clock-only and does not alter the puzzle fields. -/
def move (s0 : GameState) (d : Direction) : GameState × Bool :=
  let s := { s0 with isPlaying := true }
  let dx := d.val.1
  let dy := d.val.2
  let nx := s.player_pos.1 + dx
  let ny := s.player_pos.2 + dy
  let newPos : Pos := (nx, ny)
  if inBounds s newPos then
    if tileAt s.grid nx ny = Tile.WALL then (s, false)
    else if newPos ∈ s.crates then
      let cx := nx + dx
      let cy := ny + dy
      let cratePos : Pos := (cx, cy)
      if inBounds s cratePos then
        if tileAt s.grid cx cy = Tile.WALL then (s, false)
        else if cratePos ∈ s.crates then (s, false)
        else ({ s with crates := insert cratePos (s.crates.erase newPos),
                       player_pos := newPos,
                       moves := s.moves + 1,
                       pushes := s.pushes + 1 }, true)
      else (s, false)
    else ({ s with player_pos := newPos, moves := s.moves + 1 }, true)
  else (s, false)

/-- Embeds `GameState.clone`: a field-by-field deep copy — the identity on values. -/
def clone (s : GameState) : GameState := s

/-! ## Level parsing (`GameState.__init__` / `_parse_level`) -/

/-- The `tile_map` dictionary; `tile_map.get(char, Tile.EMPTY)`. -/
def tileMap (c : Char) : Tile :=
  if c = '#' then .WALL
  else if c = ' ' then .EMPTY
  else if c = '.' then .TARGET
  else if c = '$' then .CRATE
  else if c = '*' then .CRATE_ON_TARGET
  else if c = '@' then .PLAYER
  else if c = '+' then .PLAYER_ON_TARGET
  else .EMPTY

/-- Accumulator of `_parse_level`'s loop: the grid plus the player, target
and crate fields it fills in. -/
structure ParseAcc where
  grid : List (List Tile)
  player : Pos
  targets : Finset Pos
  crates : Finset Pos
  deriving DecidableEq

/-- The assignment `self.grid[y][x] = t`. -/
def setTile (g : List (List Tile)) (x y : ℕ) (t : Tile) : List (List Tile) :=
  g.set y ((g.getD y []).set x t)

/-- One iteration of `_parse_level`'s inner loop, for the character at
column `x` of row `y`. -/
def parseCell (a : ParseAcc) (x y : ℕ) (c : Char) : ParseAcc :=
  let p : Pos := ((x : ℤ), (y : ℤ))
  match tileMap c with
  | .PLAYER => { a with player := p, grid := setTile a.grid x y .EMPTY }
  | .PLAYER_ON_TARGET =>
      { a with player := p, grid := setTile a.grid x y .TARGET,
               targets := insert p a.targets }
  | .TARGET => { a with grid := setTile a.grid x y .TARGET, targets := insert p a.targets }
  | .CRATE => { a with grid := setTile a.grid x y .EMPTY, crates := insert p a.crates }
  | .CRATE_ON_TARGET =>
      { a with grid := setTile a.grid x y .TARGET,
               targets := insert p a.targets, crates := insert p a.crates }
  | t => { a with grid := setTile a.grid x y t }

/-- Loop `for x, char in enumerate(row):` starting at column `x`. -/
def parseCells (a : ParseAcc) (y : ℕ) : ℕ → List Char → ParseAcc
  | _, [] => a
  | x, c :: cs => parseCells (parseCell a x y c) y (x + 1) cs

/-- Loop `for y, row in enumerate(level_data):` starting at row `y`. -/
def parseRows (a : ParseAcc) : ℕ → List (List Char) → ParseAcc
  | _, [] => a
  | y, r :: rs => parseRows (parseCells a y 0 r) (y + 1) rs

/-- Embeds `_parse_level`, starting from the freshly initialised grid and the
default `player_pos = (0, 0)`. -/
def parseLevel (rows : List (List Char)) (width height : ℕ) : ParseAcc :=
  parseRows
    { grid := List.replicate height (List.replicate width Tile.EMPTY)
      player := (0, 0), targets := ∅, crates := ∅ } 0 rows

/-- Embeds `self.width = max(len(row) for row in level_data)` (Python's `max`
raises on an empty `level_data`; `mkGameState` errors out first). -/
def levelWidth (rows : List (List Char)) : ℕ := (rows.map List.length).foldl max 0

/-- The parse of a level: `_parse_level` applied to the fresh grid. -/
def levelParse (rows : List (List Char)) : ParseAcc :=
  parseLevel rows (levelWidth rows) rows.length

/-- Number of crate cells the parse finds (`len(self.crate_positions)`). -/
def crateCount (rows : List (List Char)) : ℕ := (levelParse rows).crates.card

/-- Number of target cells the parse finds (`len(self.targets)`). -/
def targetCount (rows : List (List Char)) : ℕ := (levelParse rows).targets.card

/-- Embeds `GameState.__init__`: parse, then validate.  Python raises `ValueError`
(and `max()` raises on an empty `level_data`); the embedding returns
`Except`. -/
def mkGameState (rows : List (List Char)) : Except String GameState :=
  if rows = [] then .error "max() arg is an empty sequence"
  else
    let width := levelWidth rows
    let height := rows.length
    let a := levelParse rows
    if a.targets.card = 0 then .error "Level has no targets!"
    else if a.crates.card = 0 then .error "Level has no crates!"
    else if a.crates.card ≠ a.targets.card then .error "Crate/target mismatch"
    else .ok { player_pos := a.player
               crates := a.crates
               targets := a.targets
               grid := a.grid
               width := width
               height := height
               moves := 0
               pushes := 0
               isPlaying := false }

/-! ## Heuristic and deadlock detection (`AStarSearch._heuristic`,
`AStarSearch._is_corner_deadlock`) -/

/-- Manhattan distance `abs(a[0]-b[0]) + abs(a[1]-b[1])`. -/
def manhattan (a b : Pos) : ℕ := (a.1 - b.1).natAbs + (a.2 - b.2).natAbs

/-- Embeds `min(abs(crate[0]-t[0]) + abs(crate[1]-t[1]) for t in targets)`.
Python's `min` raises on an empty `targets`; the `getD 0` default is never
observed on validated states, whose target set is non-empty. -/
def minTargetDist (c : Pos) (ts : Finset Pos) : ℕ :=
  ((ts.image fun t => manhattan c t).min).getD 0

/-- Embeds `AStarSearch._is_corner_deadlock`: blocked (wall or boundary) on at
least one of left/right and at least one of top/bottom. -/
def isCornerDeadlock (s : GameState) (p : Pos) : Prop :=
  let x := p.1
  let y := p.2
  ((x = 0 ∨ tileAt s.grid (x - 1) y = Tile.WALL) ∨
     (x = (s.width : ℤ) - 1 ∨ tileAt s.grid (x + 1) y = Tile.WALL)) ∧
  ((y = 0 ∨ tileAt s.grid x (y - 1) = Tile.WALL) ∨
     (y = (s.height : ℤ) - 1 ∨ tileAt s.grid x (y + 1) = Tile.WALL))

instance (s : GameState) (p : Pos) : Decidable (isCornerDeadlock s p) := by
  unfold isCornerDeadlock; infer_instance

/-- Embeds `AStarSearch._heuristic`.  The Python loops run over the (arbitrary)
iteration order of the crate set; both loops compute order-independent
sums, embedded as `Finset` sums.  `unsolved = [c for c in crates if c not
in state.targets]` is the set difference `crates \ targets`. -/
def heuristic (s : GameState) : ℕ :=
  if isSolved s then 0
  else
    let unsolved := s.crates \ s.targets
    if unsolved = ∅ then 0
    else
      (∑ c ∈ unsolved, minTargetDist c s.targets) +
        500 * (unsolved.filter fun c => isCornerDeadlock s c).card

/-! ## Specification-side descriptions of `move` (for C2/C3) -/

/-- The player's target cell for a move. -/
def moveTarget (s : GameState) (d : Direction) : Pos :=
  (s.player_pos.1 + d.val.1, s.player_pos.2 + d.val.2)

/-- The cell one further in the same direction (where a pushed crate goes). -/
def moveBeyond (s : GameState) (d : Direction) : Pos :=
  ((moveTarget s d).1 + d.val.1, (moveTarget s d).2 + d.val.2)

/-- Bounds checking ignores the `is_playing` flag. -/
@[simp] theorem inBounds_isPlaying (s : GameState) (b : Bool) (p : Pos) :
    inBounds { s with isPlaying := b } p ↔ inBounds s p := Iff.rfl

/-- The claim's failure condition: target out of bounds or a wall, or a
crate there whose beyond-cell is out of bounds, a wall, or another crate. -/
def moveBlocked (s : GameState) (d : Direction) : Prop :=
  ¬ inBounds s (moveTarget s d) ∨
  tileAt s.grid (moveTarget s d).1 (moveTarget s d).2 = Tile.WALL ∨
  (moveTarget s d ∈ s.crates ∧
    (¬ inBounds s (moveBeyond s d) ∨
     tileAt s.grid (moveBeyond s d).1 (moveBeyond s d).2 = Tile.WALL ∨
     moveBeyond s d ∈ s.crates))

instance (s : GameState) (d : Direction) : Decidable (moveBlocked s d) := by
  unfold moveBlocked; infer_instance

/-- The claim's description of one move: fail exactly on `moveBlocked`;
otherwise the player steps to the target cell and `moves` increments, and
when a crate sat there it relocates to the beyond-cell and `pushes`
increments.  (`isPlaying` is set in every case, matching
`start_playing`.) -/
def moveSpec (s : GameState) (d : Direction) : GameState × Bool :=
  if moveBlocked s d then ({ s with isPlaying := true }, false)
  else if moveTarget s d ∈ s.crates then
    ({ s with isPlaying := true
              player_pos := moveTarget s d
              crates := insert (moveBeyond s d) (s.crates.erase (moveTarget s d))
              moves := s.moves + 1
              pushes := s.pushes + 1 }, true)
  else ({ s with isPlaying := true
                 player_pos := moveTarget s d
                 moves := s.moves + 1 }, true)

/-- Demonstration level `"@$."`: player at (0,0), crate at (1,0), target
at (2,0). -/
def demoLevel : List (List Char) := [['@', '$', '.']]

/-- The state `GameState(demoLevel)` constructs. -/
def demoState : GameState :=
  { player_pos := (0, 0)
    crates := {(1, 0)}
    targets := {(2, 0)}
    grid := [[Tile.EMPTY, Tile.EMPTY, Tile.TARGET]]
    width := 3
    height := 1
    moves := 0
    pushes := 0
    isPlaying := false }

/-! ## C7: the heuristic against the spec's description -/

/-- The spec's description of the heuristic: 0 when solved, otherwise for
every crate not on any target its Manhattan distance to the nearest target
cell, plus 500 for each such crate in a corner deadlock. -/
def specHeuristic (s : GameState) (h : s.targets.Nonempty) : ℕ :=
  if isSolved s then 0
  else
    ∑ c ∈ s.crates \ s.targets,
      ((s.targets.image fun t => manhattan c t).min' (h.image _) +
        if isCornerDeadlock s c then 500 else 0)

/-! ## C10: a missing player symbol defaults to (0, 0) -/

/-- The level names a player cell (`'@'` or `'+'`). -/
def hasPlayerChar (rows : List (List Char)) : Prop :=
  ∃ r ∈ rows, ∃ ch ∈ r, ch = '@' ∨ ch = '+'

instance (rows : List (List Char)) : Decidable (hasPlayerChar rows) := by
  unfold hasPlayerChar; infer_instance

/-! ## C6: state invariants along any sequence of moves -/

/-- Total application of a sequence of `move` calls: each call leaves its
(possibly unchanged) receiver behind, rejected moves included. -/
def applyMovesT (s : GameState) (dirs : List Direction) : GameState :=
  dirs.foldl (fun t d => (move t d).1) s

/-- Invariant: no crate sits on a wall cell. -/
def crateInv (s : GameState) : Prop :=
  ∀ c ∈ s.crates, tileAt s.grid c.1 c.2 ≠ Tile.WALL

/-- Invariant: the player does not sit on a wall cell. -/
def playerInv (s : GameState) : Prop :=
  tileAt s.grid s.player_pos.1 s.player_pos.2 ≠ Tile.WALL

/-- Invariant: as many crates as targets. -/
def cardInv (s : GameState) : Prop := s.crates.card = s.targets.card

instance (s : GameState) : Decidable (crateInv s) := by
  unfold crateInv; infer_instance

instance (s : GameState) : Decidable (playerInv s) := by
  unfold playerInv; infer_instance

instance (s : GameState) : Decidable (cardInv s) := by
  unfold cardInv; infer_instance

/-! Parse-time invariant: every crate the parse records sits on a cell the
parse wrote as `EMPTY` or `TARGET`, never `WALL`; later iterations only
write cells strictly after it in row-major order. -/

/-- Grid dimension bookkeeping for the parse. -/
def gridDims (g : List (List Tile)) (w h : ℕ) : Prop :=
  g.length = h ∧ ∀ r ∈ g, r.length = w

/-- Cell `c` lies strictly before column `x` of row `y` in row-major order. -/
def pastCell (x y : ℕ) (c : Pos) : Prop :=
  c.2 < (y : ℤ) ∨ (c.2 = (y : ℤ) ∧ c.1 < (x : ℤ))

/-- The state `GameState("#$.")` constructs: no player symbol, so the
player defaults to cell (0, 0), which is a wall. -/
def noPlayerState : GameState :=
  { player_pos := (0, 0)
    crates := {(1, 0)}
    targets := {(2, 0)}
    grid := [[Tile.WALL, Tile.EMPTY, Tile.TARGET]]
    width := 3
    height := 1
    moves := 0
    pushes := 0
    isPlaying := false }

/-! ## Search strategies (`ai_agent.py`)

The wall-clock check `time.time() - start_time > max_time` at the top of
every loop iteration is abstracted by a boolean oracle indexed by the
number of nodes popped so far (one pop per iteration); the searches are
modelled as step functions iterated under fuel, and every theorem below
quantifies over the oracle and the fuel. -/

/-- Canonical key: `(player_pos, frozenset(crate_positions))`. -/
abbrev Key := Pos × Finset Pos

/-- How one search invocation ended: solved at a pop, wall-clock timeout,
node-budget break, or frontier exhaustion. -/
inductive TermReason where
  | solved | timeout | nodeLimit | exhausted
  deriving DecidableEq, Repr

/-- One step of a search loop: continue with a new state, or terminate
with a reason, a result, and the loop state at termination. -/
inductive StepResult (σ : Type) where
  | next (st : σ)
  | done (reason : TermReason) (res : Option (List Direction)) (final : σ)

/-- Embeds `if best_path: return best_path ... return None` (empty list is falsy). -/
def bestOrNone (best : List Direction) : Option (List Direction) :=
  if best = [] then none else some best

/-! ### A* (`AStarSearch.search`) -/

/-- The `max_nodes` tiers of `AStarSearch.search`. -/
def aNodeLimit (difficulty : String) : ℕ :=
  if difficulty = "easy" then 30000
  else if difficulty = "medium" then 50000
  else 100000

/-- A priority-queue entry `(f_score, counter, state, g_score, path)`. -/
structure AEntry where
  f : ℕ
  counter : ℕ
  state : GameState
  g : ℕ
  path : List Direction
  deriving DecidableEq

/-- The `PriorityQueue` tuple ordering: lexicographic on `(f, counter)`; the
counters are pairwise distinct, so Python's comparison never reaches the
non-comparable `GameState` component. -/
def aEntryLE (e1 e2 : AEntry) : Prop :=
  e1.f < e2.f ∨ (e1.f = e2.f ∧ e1.counter ≤ e2.counter)

instance : DecidableRel aEntryLE := fun e1 e2 => by
  unfold aEntryLE; infer_instance

/-- A* loop state.  `expanded` is the list of keys of popped nodes in pop
order (`nodes_explored = expanded.length`); `bestH = none` models the
initial `float('inf')`.  The write-only `best_state` variable is not
modelled. -/
structure AState where
  pq : List AEntry
  visited : Finset Key
  counter : ℕ
  expanded : List Key
  bestH : Option ℕ
  bestPath : List Direction

/-- The A* loop state just before the first iteration. -/
def initAState (s : GameState) : AState :=
  { pq := [⟨heuristic s, 0, s, 0, []⟩]
    visited := {stateHash s}
    counter := 0
    expanded := []
    bestH := none
    bestPath := [] }

/-- The `for direction in Direction:` expansion of A*: clone, move, and if the
new key is unvisited, mark it visited and insert the entry into the
priority queue with the next counter value. -/
def aExpand (s : GameState) (g : ℕ) (path : List Direction) :
    List Direction → List AEntry → Finset Key → ℕ →
      List AEntry × Finset Key × ℕ
  | [], pq, visited, counter => (pq, visited, counter)
  | d :: ds, pq, visited, counter =>
      let m := move (clone s) d
      if m.2 then
        let k := stateHash m.1
        if k ∈ visited then aExpand s g path ds pq visited counter
        else
          aExpand s g path ds
            (List.orderedInsert aEntryLE
              ⟨g + 1 + heuristic m.1, counter + 1, m.1, g + 1, path ++ [d]⟩ pq)
            (insert k visited) (counter + 1)
      else aExpand s g path ds pq visited counter

/-- One iteration of the A* `while not pq.empty()` loop. -/
def astarStep (maxNodes : ℕ) (timedOut : Bool) (st : AState) : StepResult AState :=
  match st.pq with
  | [] => .done .exhausted (bestOrNone st.bestPath) st
  | e :: rest =>
      if timedOut then .done .timeout (bestOrNone st.bestPath) st
      else
        let expanded' := st.expanded ++ [stateHash e.state]
        let currentH := heuristic e.state
        let upd : Bool :=
          (match st.bestH with
            | none => true
            | some b => decide (currentH < b)) && decide (0 < e.path.length)
        let bestH' := if upd then some currentH else st.bestH
        let bestPath' := if upd then e.path else st.bestPath
        if isSolved e.state then
          .done .solved (some e.path)
            { st with pq := rest, expanded := expanded',
                      bestH := bestH', bestPath := bestPath' }
        else
          let ex := aExpand e.state e.g e.path dirList rest st.visited st.counter
          let st' : AState :=
            { pq := ex.1, visited := ex.2.1, counter := ex.2.2,
              expanded := expanded', bestH := bestH', bestPath := bestPath' }
          if maxNodes ≤ expanded'.length then
            .done .nodeLimit (bestOrNone bestPath') st'
          else .next st'

/-- Iterate `astarStep` for at most `n` iterations, freezing at the loop
state in which the search terminated. -/
def astarIter (maxNodes : ℕ) (oracle : ℕ → Bool) : ℕ → AState → AState
  | 0, st => st
  | n + 1, st =>
      match astarStep maxNodes (oracle st.expanded.length) st with
      | .next st' => astarIter maxNodes oracle n st'
      | .done _ _ fin => fin

/-- Run the A* loop to termination (|`none` = fuel ran out before the loop
terminated, which never happens for real runs). -/
def astarRun (maxNodes : ℕ) (oracle : ℕ → Bool) :
    ℕ → AState → Option (TermReason × Option (List Direction))
  | 0, _ => none
  | n + 1, st =>
      match astarStep maxNodes (oracle st.expanded.length) st with
      | .next st' => astarRun maxNodes oracle n st'
      | .done r res _ => some (r, res)

/-! ### BFS (`BFSSearch.search`) -/

/-- The `max_nodes` tiers of `BFSSearch.search`. -/
def bNodeLimit (difficulty : String) : ℕ :=
  if difficulty = "easy" then 20000
  else if difficulty = "medium" then 40000
  else 80000

/-- BFS loop state (FIFO queue of `(state, path)`). -/
structure BState where
  queue : List (GameState × List Direction)
  visited : Finset Key
  expanded : List Key
  bestPath : List Direction

/-- The BFS loop state just before the first iteration. -/
def initBState (s : GameState) : BState :=
  { queue := [(s, [])]
    visited := {stateHash s}
    expanded := []
    bestPath := [] }

/-- The `for direction in Direction:` expansion of BFS: clone, move, and if the
new key is unvisited, mark it and append `(new_state, new_path)` at the
back of the queue. -/
def bExpand (s : GameState) (path : List Direction) :
    List Direction → List (GameState × List Direction) → Finset Key →
      List (GameState × List Direction) × Finset Key
  | [], q, v => (q, v)
  | d :: ds, q, v =>
      let m := move (clone s) d
      if m.2 then
        let k := stateHash m.1
        if k ∈ v then bExpand s path ds q v
        else bExpand s path ds (q ++ [(m.1, path ++ [d])]) (insert k v)
      else bExpand s path ds q v

/-- One iteration of the BFS `while not queue.empty()` loop.  (On frontier
exhaustion `BFSSearch.search` returns `None` — it has no best-path
fallback after the loop.) -/
def bfsStep (maxNodes : ℕ) (timedOut : Bool) (st : BState) : StepResult BState :=
  match st.queue with
  | [] => .done .exhausted none st
  | (s, p) :: rest =>
      if timedOut then .done .timeout (bestOrNone st.bestPath) st
      else
        let expanded' := st.expanded ++ [stateHash s]
        let bestPath' :=
          if st.bestPath.length < p.length ∧ p.length < 100 then p else st.bestPath
        if isSolved s then
          .done .solved (some p)
            { st with queue := rest, expanded := expanded', bestPath := bestPath' }
        else
          let ex := bExpand s p dirList rest st.visited
          let st' : BState :=
            { queue := ex.1, visited := ex.2, expanded := expanded',
              bestPath := bestPath' }
          if maxNodes ≤ expanded'.length then
            .done .nodeLimit (bestOrNone bestPath') st'
          else .next st'

/-- Iterate `bfsStep`, freezing at the terminating loop state. -/
def bfsIter (maxNodes : ℕ) (oracle : ℕ → Bool) : ℕ → BState → BState
  | 0, st => st
  | n + 1, st =>
      match bfsStep maxNodes (oracle st.expanded.length) st with
      | .next st' => bfsIter maxNodes oracle n st'
      | .done _ _ fin => fin

/-- Run the BFS loop to termination. -/
def bfsRun (maxNodes : ℕ) (oracle : ℕ → Bool) :
    ℕ → BState → Option (TermReason × Option (List Direction))
  | 0, _ => none
  | n + 1, st =>
      match bfsStep maxNodes (oracle st.expanded.length) st with
      | .next st' => bfsRun maxNodes oracle n st'
      | .done r res _ => some (r, res)

/-! ### DFS (`DFSSearch.search`) -/

/-- The `(max_depth, max_nodes)` tiers of `DFSSearch.search`. -/
def dLimits (difficulty : String) : ℕ × ℕ :=
  if difficulty = "easy" then (50, 20000)
  else if difficulty = "medium" then (80, 40000)
  else (120, 80000)

/-- DFS loop state (LIFO stack of `(state, path, depth)`, top first). -/
structure DState where
  stack : List (GameState × List Direction × ℕ)
  visited : Finset Key
  expanded : List Key
  bestPath : List Direction

/-- The DFS loop state just before the first iteration. -/
def initDState (s : GameState) : DState :=
  { stack := [(s, [], 0)]
    visited := {stateHash s}
    expanded := []
    bestPath := [] }

/-- The `for direction in Direction:` expansion of DFS.  Python appends to the
right of a deque popped from the right; consing each new entry onto the
head in iteration order yields the same pop order. -/
def dExpand (s : GameState) (path : List Direction) (depth : ℕ) :
    List Direction → List (GameState × List Direction × ℕ) → Finset Key →
      List (GameState × List Direction × ℕ) × Finset Key
  | [], stk, v => (stk, v)
  | d :: ds, stk, v =>
      let m := move (clone s) d
      if m.2 then
        let k := stateHash m.1
        if k ∈ v then dExpand s path depth ds stk v
        else dExpand s path depth ds ((m.1, path ++ [d], depth + 1) :: stk) (insert k v)
      else dExpand s path depth ds stk v

/-- One iteration of the DFS `while stack:` loop (`continue` on reaching
the depth ceiling skips both the expansion and the node-limit check). -/
def dfsStep (maxDepth maxNodes : ℕ) (timedOut : Bool) (st : DState) :
    StepResult DState :=
  match st.stack with
  | [] => .done .exhausted none st
  | (s, p, depth) :: rest =>
      if timedOut then .done .timeout (bestOrNone st.bestPath) st
      else
        let expanded' := st.expanded ++ [stateHash s]
        let bestPath' :=
          if st.bestPath.length < p.length ∧ p.length < 100 then p else st.bestPath
        if isSolved s then
          .done .solved (some p)
            { st with stack := rest, expanded := expanded', bestPath := bestPath' }
        else if maxDepth ≤ depth then
          .next { st with stack := rest, expanded := expanded', bestPath := bestPath' }
        else
          let ex := dExpand s p depth dirList rest st.visited
          let st' : DState :=
            { stack := ex.1, visited := ex.2, expanded := expanded',
              bestPath := bestPath' }
          if maxNodes ≤ expanded'.length then
            .done .nodeLimit (bestOrNone bestPath') st'
          else .next st'

/-- Run the DFS loop to termination. -/
def dfsRun (maxDepth maxNodes : ℕ) (oracle : ℕ → Bool) :
    ℕ → DState → Option (TermReason × Option (List Direction))
  | 0, _ => none
  | n + 1, st =>
      match dfsStep maxDepth maxNodes (oracle st.expanded.length) st with
      | .next st' => dfsRun maxDepth maxNodes oracle n st'
      | .done r res _ => some (r, res)

/-! ### Greedy fallback (`SimpleGreedyFallback.get_next_move`) -/

/-- Lexicographic order on positions, used to enumerate a Python set whose
iteration order is unspecified; it only fixes which of several
equidistant crates `min` returns. -/
def posLe (a b : Pos) : Prop := a.1 < b.1 ∨ (a.1 = b.1 ∧ a.2 ≤ b.2)

instance : DecidableRel posLe := fun a b => by unfold posLe; infer_instance

instance : IsTrans Pos posLe :=
  ⟨fun a b c h1 h2 => by unfold posLe at *; omega⟩

instance : IsAntisymm Pos posLe :=
  ⟨fun a b h1 h2 => by
    unfold posLe at *
    have : a.1 = b.1 ∧ a.2 = b.2 := by omega
    exact Prod.ext this.1 this.2⟩

instance : IsTotal Pos posLe :=
  ⟨fun a b => by unfold posLe; omega⟩

/-- Embeds `min(iterable, key=f)`: first element with minimal key wins ties. -/
def minByKey (f : Pos → ℕ) (l : List Pos) : Option Pos :=
  l.foldl
    (fun acc c =>
      match acc with
      | none => some c
      | some b => if f c < f b then some c else some b)
    none

/-- Embeds `SimpleGreedyFallback.get_next_move`. -/
def greedyNextMove (state : GameState) : Option Direction :=
  let unsolvedSet := state.crates \ state.targets
  if unsolvedSet = ∅ then none
  else
    let unsolved := unsolvedSet.sort posLe
    let pp := state.player_pos
    let nearest :=
      (minByKey (fun c => manhattan c pp) unsolved).getD (0, 0)
    let dx := nearest.1 - pp.1
    let dy := nearest.2 - pp.2
    let movesToTry : List Direction :=
      if dx.natAbs < dy.natAbs then
        (if 0 < dy then [.DOWN] else [.UP]) ++
          (if 0 < dx then [.RIGHT] else if dx < 0 then [.LEFT] else [])
      else
        (if 0 < dx then [.RIGHT] else [.LEFT]) ++
          (if 0 < dy then [.DOWN] else if dy < 0 then [.UP] else [])
    let allMoves := movesToTry ++ dirList.filter (fun d => d ∉ movesToTry)
    allMoves.find? fun d => (move (clone state) d).2

/-! ### Controller (`AIController`) -/

/-- The `AIController` mutable fields (the search-object and timing
configuration are per-algorithm constants). -/
structure AIController where
  algorithm_name : String
  difficulty : String
  solution_path : List Direction
  current_step : ℕ
  is_thinking : Bool
  using_fallback : Bool
  deriving DecidableEq

/-- Embeds `AIController.__init__` (unknown algorithm names fall back to A*). -/
def mkAIController (algorithm difficulty : String) : AIController :=
  let a := algorithm.toLower
  { algorithm_name := if a = "astar" ∨ a = "bfs" ∨ a = "dfs" then a else "astar"
    difficulty := difficulty.toLower
    solution_path := []
    current_step := 0
    is_thinking := false
    using_fallback := false }

/-- Embeds `AIController.compute_solution`.  Here `searchResult` stands for the value
of `self.search_algorithm.search(game_state, max_time, self.difficulty)`;
the method only branches on that value.  Returns the Python `bool` result
together with the updated controller. -/
def computeSolution (c : AIController) (searchResult : Option (List Direction)) :
    Bool × AIController :=
  if c.is_thinking then (true, c)
  else
    let c1 := { c with is_thinking := false, using_fallback := false }
    match searchResult with
    | some sol =>
        if 0 < sol.length then
          (true, { c1 with solution_path := sol, current_step := 0 })
        else
          (true, { c1 with using_fallback := true, solution_path := [],
                           current_step := 0 })
    | none =>
        (true, { c1 with using_fallback := true, solution_path := [],
                         current_step := 0 })

/-- Embeds `AIController.get_next_move`. -/
def getNextMove (c : AIController) (gs : GameState) :
    Option Direction × AIController :=
  if c.using_fallback then (greedyNextMove gs, c)
  else if h : c.current_step < c.solution_path.length then
    (some (c.solution_path.get ⟨c.current_step, h⟩),
      { c with current_step := c.current_step + 1 })
  else (none, c)

/-- Embeds `AIController.has_solution`. -/
def hasSolution (c : AIController) : Bool :=
  if c.using_fallback then true
  else decide (0 < c.solution_path.length ∧ c.current_step < c.solution_path.length)

/-- Embeds `AIController.reset`. -/
def resetController (c : AIController) : AIController :=
  { c with solution_path := [], current_step := 0,
           is_thinking := false, using_fallback := false }

/-- The state `GameState("*")` constructs: already solved. -/
def solvedState : GameState :=
  { player_pos := (0, 0)
    crates := {(0, 0)}
    targets := {(0, 0)}
    grid := [[Tile.TARGET]]
    width := 1
    height := 1
    moves := 0
    pushes := 0
    isPlaying := false }

/-! ## C4: A* never expands a canonical key twice -/

/-- The canonical keys held in the A* priority queue. -/
def aQueueKeys (pq : List AEntry) : List Key := pq.map fun e => stateHash e.state

/-- A* search invariant: all keys in the queue and the expanded list are
pairwise distinct, and every one of them has been marked visited. -/
def AInv (st : AState) : Prop :=
  (aQueueKeys st.pq ++ st.expanded).Nodup ∧
    ∀ k ∈ aQueueKeys st.pq ++ st.expanded, k ∈ st.visited

/-! ## C5: BFS optimality at exhaustion-free termination

The proof works on the canonical-key graph: all states one search touches
share the initial state's static data (grid, width, height, targets), and
`move` behaves identically on key-equal states, so BFS over states
simulates BFS over keys, where the classic level-order argument applies. -/

/-- Apply a list of moves, failing if any single move is rejected. -/
def applyPath (s : GameState) : List Direction → Option GameState
  | [] => some s
  | d :: ds =>
      let m := move s d
      if m.2 then applyPath m.1 ds else none

/-- Predicate: `p` solves the puzzle from `s0`: every move succeeds and the final
state is solved. -/
def solves (s0 : GameState) (p : List Direction) : Prop :=
  ∃ t, applyPath s0 p = some t ∧ isSolved t = true

/-- The static data of a state, invariant under `move`. -/
structure Statics where
  grid : List (List Tile)
  width : ℕ
  height : ℕ
  deriving DecidableEq

/-- The static part of a `GameState`. -/
def statics (s : GameState) : Statics := ⟨s.grid, s.width, s.height⟩

/-- Bounds check against static data only. -/
def inBoundsS (σ : Statics) (p : Pos) : Prop :=
  0 ≤ p.1 ∧ p.1 < (σ.width : ℤ) ∧ 0 ≤ p.2 ∧ p.2 < (σ.height : ℤ)

instance (σ : Statics) (p : Pos) : Decidable (inBoundsS σ p) := by
  unfold inBoundsS; infer_instance

/-- The move relation projected onto canonical keys: the success of a move
and the key of its result depend only on the key and the static data. -/
def keyMove (σ : Statics) (k : Key) (d : Direction) : Option Key :=
  let dx := d.val.1
  let dy := d.val.2
  let nx := k.1.1 + dx
  let ny := k.1.2 + dy
  let newPos : Pos := (nx, ny)
  if inBoundsS σ newPos then
    if tileAt σ.grid nx ny = Tile.WALL then none
    else if newPos ∈ k.2 then
      let cx := nx + dx
      let cy := ny + dy
      let cratePos : Pos := (cx, cy)
      if inBoundsS σ cratePos then
        if tileAt σ.grid cx cy = Tile.WALL then none
        else if cratePos ∈ k.2 then none
        else some (newPos, insert cratePos (k.2.erase newPos))
      else none
    else some (newPos, k.2)
  else none

/-- Apply a list of key moves. -/
def applyKeyPath (σ : Statics) (k : Key) : List Direction → Option Key
  | [] => some k
  | d :: ds =>
      match keyMove σ k d with
      | some k' => applyKeyPath σ k' ds
      | none => none

/-- Reachability in exactly `n` key steps. -/
def ReachInN (σ : Statics) (k0 k : Key) (n : ℕ) : Prop :=
  ∃ p : List Direction, p.length = n ∧ applyKeyPath σ k0 p = some k

/-- Predicate: `n` is the key-graph distance from `k0` to `k`. -/
def KeyDist (σ : Statics) (k0 k : Key) (n : ℕ) : Prop :=
  ReachInN σ k0 k n ∧ ∀ m < n, ¬ ReachInN σ k0 k m

/-- The canonical keys held in the BFS queue. -/
def bQueueKeys (q : List (GameState × List Direction)) : List Key :=
  q.map fun e => stateHash e.1

/-- The BFS loop invariant (all relative to the initial state `s0`):
every queue entry really is reached by its path, its path length is its
key's true distance, path lengths are nondecreasing front to back and
within 1 of each other, `visited` is exactly expanded keys plus queue
keys (all pairwise distinct), every key-successor of an expanded key is
visited, every key strictly closer than the front entry is expanded
(all reachable keys once the queue empties), and no expanded key is
solved. -/
structure BInv (s0 : GameState) (st : BState) : Prop where
  entries : ∀ e ∈ st.queue, applyPath s0 e.2 = some e.1
  dists : ∀ e ∈ st.queue,
    KeyDist (statics s0) (stateHash s0) (stateHash e.1) e.2.length
  sorted : List.Sorted (fun a b => a ≤ b) (st.queue.map fun e => e.2.length)
  close : ∀ e ∈ st.queue, ∀ e' ∈ st.queue, e'.2.length ≤ e.2.length + 1
  vis_iff : ∀ k, k ∈ st.visited ↔ (k ∈ st.expanded ∨ k ∈ bQueueKeys st.queue)
  nodup : (bQueueKeys st.queue ++ st.expanded).Nodup
  closed : ∀ k ∈ st.expanded, ∀ d k',
    keyMove (statics s0) k d = some k' → k' ∈ st.visited
  frontier_empty : st.queue = [] →
    ∀ k m, KeyDist (statics s0) (stateHash s0) k m → k ∈ st.expanded
  frontier_head : ∀ e, st.queue.head? = some e →
    ∀ k m, KeyDist (statics s0) (stateHash s0) k m → m < e.2.length →
      k ∈ st.expanded
  unsolved : ∀ k ∈ st.expanded, k.2 ≠ s0.targets

theorem demoState_mk : mkGameState demoLevel = .ok demoState := by rfl

/-- C3: `move` agrees with the claim's case analysis everywhere. -/
theorem move_eq_moveSpec (s : GameState) (d : Direction) :
    move s d = moveSpec s d := by
  unfold move moveSpec moveBlocked moveTarget moveBeyond
  dsimp only
  simp only [inBounds_isPlaying]
  split_ifs <;> first | rfl | tauto

/-- C2 amended, frame part: a rejected move leaves every puzzle field
unchanged; only the `is_playing` flag (the playing clock) is set. -/
theorem move_rejected_frame (s : GameState) (d : Direction)
    (h : (move s d).2 = false) :
    (move s d).1 = { s with isPlaying := true } := by
  unfold move at h ⊢
  dsimp only at h ⊢
  split_ifs at h ⊢ <;> simp_all

/-! ## C2: `move` mutates the receiver -/

/-- C2 counterexample: a successful `move` changes the state it was called
on (`GameState.move` updates `self` in place; callers clone first). -/
theorem move_mutates_counterexample :
    (move demoState .RIGHT).2 = true ∧ (move demoState .RIGHT).1 ≠ demoState := by
  decide

/-- C2 amended, witness: the rejected move `LEFT` from `demoState` leaves
every puzzle field unchanged and only sets `is_playing`. -/
theorem move_rejected_frame_witness :
    (move demoState .LEFT).2 = false ∧
      (move demoState .LEFT).1 = { demoState with isPlaying := true } :=
  ⟨by decide, move_rejected_frame demoState .LEFT (by decide)⟩

theorem minTargetDist_eq_min' (c : Pos) (ts : Finset Pos) (h : ts.Nonempty) :
    minTargetDist c ts = (ts.image fun t => manhattan c t).min' (h.image _) := by
  unfold minTargetDist
  rw [← Finset.coe_min' (h.image _)]
  rfl

/-- C7: `_heuristic` computes exactly the spec's sum. -/
theorem heuristic_eq_spec (s : GameState) (h : s.targets.Nonempty) :
    heuristic s = specHeuristic s h := by
  unfold heuristic specHeuristic
  dsimp only
  split_ifs with hs hu
  · rfl
  · rw [hu, Finset.sum_empty]
  · rw [Finset.sum_add_distrib]
    congr 1
    · exact Finset.sum_congr rfl fun c _ => minTargetDist_eq_min' c s.targets h
    · rw [Finset.card_filter, Finset.mul_sum]
      exact Finset.sum_congr rfl fun c _ => by split_ifs <;> simp

/-- C7 witness at the concrete `demoState`. -/
theorem heuristic_eq_spec_witness :
    ∃ h : demoState.targets.Nonempty,
      heuristic demoState = specHeuristic demoState h :=
  ⟨by decide, heuristic_eq_spec demoState (by decide)⟩

/-! ## C8: construction succeeds iff crate count = target count ≥ 1 -/

/-- C8: `GameState.__init__` succeeds exactly when the parsed crate count
equals the parsed target count and both are at least 1 (a failing
construction yields only an error, never a partially-built state). -/
theorem mkGameState_ok_iff (rows : List (List Char)) :
    (∃ s, mkGameState rows = .ok s) ↔
      (crateCount rows = targetCount rows ∧ 1 ≤ crateCount rows) := by
  unfold mkGameState crateCount targetCount
  dsimp only
  split_ifs with h0 h1 h2 h3
  · subst h0
    simp [levelParse, parseLevel, parseRows]
  · constructor
    · rintro ⟨s, hs⟩; cases hs
    · rintro ⟨he, hc⟩; omega
  · constructor
    · rintro ⟨s, hs⟩; cases hs
    · rintro ⟨he, hc⟩; omega
  · constructor
    · rintro ⟨s, hs⟩; cases hs
    · rintro ⟨he, hc⟩; omega
  · exact ⟨fun _ => ⟨by omega, by omega⟩, fun _ => ⟨_, rfl⟩⟩

/-- C8 witness: `demoLevel` satisfies the count condition and constructs. -/
theorem mkGameState_ok_iff_witness :
    (crateCount demoLevel = targetCount demoLevel ∧ 1 ≤ crateCount demoLevel) ∧
      ∃ s, mkGameState demoLevel = .ok s :=
  ⟨⟨by decide, by decide⟩, (mkGameState_ok_iff demoLevel).mpr ⟨by decide, by decide⟩⟩

theorem parseCell_player_eq (a : ParseAcc) (x y : ℕ) (c : Char)
    (h1 : c ≠ '@') (h2 : c ≠ '+') : (parseCell a x y c).player = a.player := by
  unfold parseCell tileMap
  split_ifs <;> simp_all

theorem parseCells_player_eq (y : ℕ) (cs : List Char) (x : ℕ) (a : ParseAcc)
    (h : ∀ c ∈ cs, c ≠ '@' ∧ c ≠ '+') :
    (parseCells a y x cs).player = a.player := by
  induction cs generalizing a x with
  | nil => rfl
  | cons c cs ih =>
      rw [parseCells, ih _ _ fun c hc => h c (List.mem_cons_of_mem _ hc)]
      exact parseCell_player_eq a x y c (h c (List.mem_cons_self c cs)).1
        (h c (List.mem_cons_self c cs)).2

theorem parseRows_player_eq (rs : List (List Char)) (y : ℕ) (a : ParseAcc)
    (h : ∀ r ∈ rs, ∀ c ∈ r, c ≠ '@' ∧ c ≠ '+') :
    (parseRows a y rs).player = a.player := by
  induction rs generalizing a y with
  | nil => rfl
  | cons r rs ih =>
      rw [parseRows, ih _ _ fun r hr => h r (List.mem_cons_of_mem _ hr)]
      exact parseCells_player_eq y r 0 a (h r (List.mem_cons_self r rs))

/-- C10: with no `'@'`/`'+'` in the level but valid counts, construction
succeeds and the player position defaults to (0, 0). -/
theorem mkGameState_no_player (rows : List (List Char))
    (hp : ¬ hasPlayerChar rows)
    (he : crateCount rows = targetCount rows) (h1 : 1 ≤ crateCount rows) :
    ∃ s, mkGameState rows = .ok s ∧ s.player_pos = (0, 0) := by
  have hne : rows ≠ [] := by
    rintro rfl
    simp [crateCount, levelParse, parseLevel, parseRows] at h1
  have hplayer : (levelParse rows).player = (0, 0) := by
    unfold levelParse parseLevel
    apply parseRows_player_eq
    intro r hr c hc
    constructor <;> intro hch <;> exact hp ⟨r, hr, c, hc, by simp [hch]⟩
  unfold crateCount targetCount at he
  unfold crateCount at h1
  unfold mkGameState
  dsimp only
  split_ifs with h0 hb hcz hm
  · exact absurd h0 hne
  · omega
  · omega
  · omega
  · exact ⟨_, rfl, hplayer⟩

/-- C10 witness: the level `"#$."` has no player symbol, constructs, puts
the player at (0, 0) — and cell (0, 0) is a wall there. -/
theorem mkGameState_no_player_witness :
    (¬ hasPlayerChar [['#', '$', '.']]) ∧
      tileAt (levelParse [['#', '$', '.']]).grid 0 0 = Tile.WALL ∧
      ∃ s, mkGameState [['#', '$', '.']] = .ok s ∧ s.player_pos = (0, 0) :=
  ⟨by decide, by decide,
    mkGameState_no_player [['#', '$', '.']] (by decide) (by decide) (by decide)⟩

theorem move_grid_eq (s : GameState) (d : Direction) :
    (move s d).1.grid = s.grid := by
  unfold move; dsimp only; split_ifs <;> rfl

theorem move_targets_eq (s : GameState) (d : Direction) :
    (move s d).1.targets = s.targets := by
  unfold move; dsimp only; split_ifs <;> rfl

theorem move_width_eq (s : GameState) (d : Direction) :
    (move s d).1.width = s.width := by
  unfold move; dsimp only; split_ifs <;> rfl

theorem move_height_eq (s : GameState) (d : Direction) :
    (move s d).1.height = s.height := by
  unfold move; dsimp only; split_ifs <;> rfl

theorem move_crateInv (s : GameState) (d : Direction) (h : crateInv s) :
    crateInv (move s d).1 := by
  unfold crateInv at h ⊢
  unfold move
  dsimp only
  split_ifs with h1 h2 h3 h4 h5 h6 <;> intro c hc <;> dsimp only at hc ⊢ <;>
    first
      | exact h c hc
      | (rcases Finset.mem_insert.1 hc with rfl | hc'
         exacts [h5, h c (Finset.mem_of_mem_erase hc')])

theorem move_playerInv (s : GameState) (d : Direction) (h : playerInv s) :
    playerInv (move s d).1 := by
  unfold playerInv at h ⊢
  unfold move
  dsimp only
  split_ifs with h1 h2 h3 h4 h5 h6 <;> first | exact h | exact h2

theorem move_cardInv (s : GameState) (d : Direction) (h : cardInv s) :
    cardInv (move s d).1 := by
  unfold cardInv at h ⊢
  unfold move
  dsimp only
  split_ifs with h1 h2 h3 h4 h5 h6 <;> try exact h
  have hnm : ((s.player_pos.1 + d.val.1 + d.val.1, s.player_pos.2 + d.val.2 + d.val.2) : Pos)
      ∉ s.crates.erase (s.player_pos.1 + d.val.1, s.player_pos.2 + d.val.2) :=
    fun hm => h6 (Finset.mem_of_mem_erase hm)
  show (insert _ (s.crates.erase _)).card = s.targets.card
  rw [Finset.card_insert_of_not_mem hnm, Finset.card_erase_add_one h3]
  exact h

theorem tileAt_natCast (g : List (List Tile)) (x y : ℕ) :
    tileAt g (x : ℤ) (y : ℤ) = (g.getD y []).getD x Tile.EMPTY := by
  unfold tileAt
  rw [if_pos ⟨Int.natCast_nonneg x, Int.natCast_nonneg y⟩, Int.toNat_natCast,
    Int.toNat_natCast]

theorem setTile_length (g : List (List Tile)) (x y : ℕ) (t : Tile) :
    (setTile g x y t).length = g.length := by
  unfold setTile; exact List.length_set ..

theorem getD_set_ne {α : Type} (l : List α) (i j : ℕ) (a d : α) (h : i ≠ j) :
    (l.set i a).getD j d = l.getD j d := by
  rw [List.getD_eq_getElem?_getD, List.getElem?_set_ne h, ← List.getD_eq_getElem?_getD]

theorem getD_set_self {α : Type} (l : List α) (i : ℕ) (a d : α)
    (hi : i < l.length) : (l.set i a).getD i d = a := by
  rw [List.getD_eq_getElem?_getD, List.getElem?_set_eq_of_lt _ hi]; rfl

theorem gridDims_setTile (g : List (List Tile)) (x y : ℕ) (t : Tile)
    (w h : ℕ) (hd : gridDims g w h) : gridDims (setTile g x y t) w h := by
  obtain ⟨hl, hr⟩ := hd
  refine ⟨(setTile_length g x y t).trans hl, fun r hrm => ?_⟩
  rcases Nat.lt_or_ge y g.length with hy | hy
  · rcases List.mem_or_eq_of_mem_set hrm with hm | rfl
    · exact hr r hm
    · rw [List.length_set]
      exact hr _ (List.getD_eq_getElem _ _ hy ▸ List.getElem_mem hy)
  · rw [setTile, List.set_eq_of_length_le (by simpa using hy)] at hrm
    exact hr r hrm

theorem tileAt_setTile_past (g : List (List Tile)) (x y : ℕ) (t : Tile)
    (c : Pos) (hc : pastCell x y c) :
    tileAt (setTile g x y t) c.1 c.2 = tileAt g c.1 c.2 := by
  unfold tileAt setTile
  split_ifs with hnn
  · obtain ⟨h1, h2⟩ := hnn
    rcases Nat.decEq c.2.toNat y with hyne | hyeq
    · rw [getD_set_ne _ _ _ _ _ (Ne.symm hyne)]
    · have hx : c.1.toNat ≠ x := by unfold pastCell at hc; omega
      rw [hyeq]
      rcases Nat.lt_or_ge y g.length with hy | hy
      · rw [getD_set_self _ _ _ _ hy, getD_set_ne _ _ _ _ _ (Ne.symm hx)]
      · rw [List.set_eq_of_length_le hy]
  · rfl

theorem tileAt_setTile_self (g : List (List Tile)) (x y : ℕ) (t : Tile)
    (w h : ℕ) (hd : gridDims g w h) (hy : y < h) (hx : x < w) :
    tileAt (setTile g x y t) (x : ℤ) (y : ℤ) = t := by
  obtain ⟨hl, hr⟩ := hd
  have hyl : y < g.length := hl ▸ hy
  have hrow : (g.getD y []).length = w :=
    hr _ (List.getD_eq_getElem _ _ hyl ▸ List.getElem_mem hyl)
  rw [tileAt_natCast]
  unfold setTile
  rw [getD_set_self _ _ _ _ hyl, getD_set_self _ _ _ _ (by omega)]

theorem parseCell_crate_inv (a : ParseAcc) (x y : ℕ) (ch : Char) (w h : ℕ)
    (hd : gridDims a.grid w h) (hy : y < h) (hx : x < w)
    (hinv : ∀ c ∈ a.crates, pastCell x y c ∧ tileAt a.grid c.1 c.2 ≠ Tile.WALL) :
    gridDims (parseCell a x y ch).grid w h ∧
      ∀ c ∈ (parseCell a x y ch).crates,
        pastCell (x + 1) y c ∧ tileAt (parseCell a x y ch).grid c.1 c.2 ≠ Tile.WALL := by
  have hold : ∀ t : Tile, ∀ c ∈ a.crates,
      pastCell (x + 1) y c ∧ tileAt (setTile a.grid x y t) c.1 c.2 ≠ Tile.WALL := by
    intro t c hc
    obtain ⟨hp, hw⟩ := hinv c hc
    refine ⟨by unfold pastCell at hp ⊢; omega, ?_⟩
    rw [tileAt_setTile_past _ _ _ _ _ hp]
    exact hw
  have hnew : ∀ t : Tile, t ≠ Tile.WALL →
      pastCell (x + 1) y ((x : ℤ), (y : ℤ)) ∧
        tileAt (setTile a.grid x y t) (x : ℤ) (y : ℤ) ≠ Tile.WALL := by
    intro t ht
    refine ⟨Or.inr ⟨rfl, by push_cast; omega⟩, ?_⟩
    rw [tileAt_setTile_self _ _ _ _ w h hd hy hx]
    exact ht
  cases htm : tileMap ch <;> (unfold parseCell; rw [htm]; dsimp only) <;>
    refine ⟨gridDims_setTile _ _ _ _ _ _ hd, fun c hc => ?_⟩ <;>
    first
      | exact hold _ c hc
      | (rcases Finset.mem_insert.1 hc with rfl | hc'
         exacts [hnew _ (by simp), hold _ c hc'])

theorem parseCells_crate_inv (y : ℕ) (cs : List Char) (x : ℕ) (a : ParseAcc)
    (w h : ℕ) (hd : gridDims a.grid w h) (hy : y < h) (hx : x + cs.length ≤ w)
    (hinv : ∀ c ∈ a.crates, pastCell x y c ∧ tileAt a.grid c.1 c.2 ≠ Tile.WALL) :
    gridDims (parseCells a y x cs).grid w h ∧
      ∀ c ∈ (parseCells a y x cs).crates,
        pastCell (x + cs.length) y c ∧
          tileAt (parseCells a y x cs).grid c.1 c.2 ≠ Tile.WALL := by
  induction cs generalizing x a with
  | nil => exact ⟨hd, hinv⟩
  | cons ch cs ih =>
      rw [parseCells]
      obtain ⟨hd', hinv'⟩ :=
        parseCell_crate_inv a x y ch w h hd hy (by simp at hx; omega) hinv
      have hlen : x + 1 + cs.length = x + (ch :: cs).length := by
        simp; omega
      rw [← hlen]
      exact ih (x + 1) _ hd' (by simp at hx ⊢; omega) hinv'

theorem parseRows_crate_inv (rs : List (List Char)) (y : ℕ) (a : ParseAcc)
    (w h : ℕ) (hd : gridDims a.grid w h) (hy : y + rs.length ≤ h)
    (hrow : ∀ r ∈ rs, r.length ≤ w)
    (hinv : ∀ c ∈ a.crates, c.2 < (y : ℤ) ∧ tileAt a.grid c.1 c.2 ≠ Tile.WALL) :
    gridDims (parseRows a y rs).grid w h ∧
      ∀ c ∈ (parseRows a y rs).crates,
        c.2 < ((y + rs.length : ℕ) : ℤ) ∧
          tileAt (parseRows a y rs).grid c.1 c.2 ≠ Tile.WALL := by
  induction rs generalizing y a with
  | nil =>
      refine ⟨hd, fun c hc => ⟨?_, (hinv c hc).2⟩⟩
      have := (hinv c hc).1
      omega
  | cons r rs ih =>
      rw [parseRows]
      obtain ⟨hd', hinv'⟩ :=
        parseCells_crate_inv y r 0 a w h hd (by simp at hy; omega)
          (by simpa using hrow r (List.mem_cons_self r rs))
          (fun c hc => ⟨Or.inl (hinv c hc).1, (hinv c hc).2⟩)
      have hlen : y + 1 + rs.length = y + (r :: rs).length := by
        simp; omega
      rw [← hlen]
      refine ih (y + 1) _ hd' (by simp at hy ⊢; omega)
        (fun r hr => hrow r (List.mem_cons_of_mem _ hr)) (fun c hc => ?_)
      obtain ⟨hp, hw⟩ := hinv' c hc
      refine ⟨?_, hw⟩
      unfold pastCell at hp
      push_cast at hp ⊢
      omega

theorem init_le_foldl_max (l : List ℕ) (a : ℕ) : a ≤ l.foldl max a := by
  induction l generalizing a with
  | nil => exact le_refl a
  | cons b l ih => exact le_trans (le_max_left a b) (ih (max a b))

theorem le_foldl_max (l : List ℕ) (a x : ℕ) (hx : x ∈ l) : x ≤ l.foldl max a := by
  induction l generalizing a with
  | nil => cases hx
  | cons b l ih =>
      rcases List.mem_cons.1 hx with rfl | hx'
      · exact le_trans (le_max_right a x) (init_le_foldl_max l (max a x))
      · exact ih (max a b) hx'

theorem levelParse_crateInv (rows : List (List Char)) :
    ∀ c ∈ (levelParse rows).crates,
      tileAt (levelParse rows).grid c.1 c.2 ≠ Tile.WALL := by
  intro c hc
  have hd : gridDims (List.replicate rows.length
      (List.replicate (levelWidth rows) Tile.EMPTY)) (levelWidth rows) rows.length := by
    refine ⟨List.length_replicate .., fun r hr => ?_⟩
    rw [List.eq_of_mem_replicate hr]
    exact List.length_replicate ..
  have := (parseRows_crate_inv rows 0
    { grid := List.replicate rows.length (List.replicate (levelWidth rows) Tile.EMPTY)
      player := (0, 0), targets := ∅, crates := ∅ }
    (levelWidth rows) rows.length hd (by omega)
    (fun r hr => le_foldl_max _ 0 _ (List.mem_map_of_mem List.length hr))
    (fun c hc => absurd hc (Finset.not_mem_empty c))).2
  exact (this c hc).2

theorem mkGameState_fields (rows : List (List Char)) (s : GameState)
    (h : mkGameState rows = .ok s) :
    s.grid = (levelParse rows).grid ∧ s.crates = (levelParse rows).crates ∧
      s.targets = (levelParse rows).targets ∧ s.player_pos = (levelParse rows).player ∧
      s.crates.card = s.targets.card := by
  unfold mkGameState at h
  dsimp only at h
  split_ifs at h with h0 h1 h2 h3
  cases h
  exact ⟨rfl, rfl, rfl, rfl, by dsimp only; omega⟩

/-- C6 amended, step preservation: along any sequence of `move` calls the
crate-placement and cardinality invariants are preserved, and so is the
player-placement invariant whenever it holds initially. -/
theorem applyMovesT_inv (dirs : List Direction) (s : GameState)
    (hc : crateInv s) (hk : cardInv s) :
    crateInv (applyMovesT s dirs) ∧ cardInv (applyMovesT s dirs) ∧
      (playerInv s → playerInv (applyMovesT s dirs)) := by
  induction dirs generalizing s with
  | nil => exact ⟨hc, hk, fun hp => hp⟩
  | cons d ds ih =>
      have step := ih (move s d).1 (move_crateInv s d hc) (move_cardInv s d hk)
      exact ⟨step.1, step.2.1, fun hp => step.2.2 (move_playerInv s d hp)⟩

/-- C6 (amended): every state reachable from a validly-constructed initial
state by any sequence of `move` calls keeps crates off walls and as many
crates as targets; the player stays off walls provided the *initial*
player cell is not a wall (which a level with no player symbol need not
guarantee). -/
theorem reachable_state_invariants (rows : List (List Char)) (s0 : GameState)
    (h : mkGameState rows = .ok s0) (dirs : List Direction) :
    crateInv (applyMovesT s0 dirs) ∧ cardInv (applyMovesT s0 dirs) ∧
      (playerInv s0 → playerInv (applyMovesT s0 dirs)) := by
  obtain ⟨hg, hcr, htg, hpl, hcard⟩ := mkGameState_fields rows s0 h
  refine applyMovesT_inv dirs s0 ?_ hcard
  intro c hc
  rw [hg]
  exact levelParse_crateInv rows c (hcr ▸ hc)

/-- C6 counterexample: a validly-constructed state (reachable by the empty
move sequence) whose player position is a wall cell, so the claim's
player-placement invariant fails as stated. -/
theorem player_on_wall_counterexample :
    mkGameState [['#', '$', '.']] = .ok noPlayerState ∧
      applyMovesT noPlayerState [] = noPlayerState ∧ ¬ playerInv noPlayerState :=
  ⟨by rfl, rfl, by decide⟩

/-- C6 witness at a concrete level and move sequence. -/
theorem reachable_state_invariants_witness :
    crateInv (applyMovesT demoState [.RIGHT]) ∧
      cardInv (applyMovesT demoState [.RIGHT]) ∧
      (playerInv demoState → playerInv (applyMovesT demoState [.RIGHT])) :=
  reachable_state_invariants demoLevel demoState demoState_mk [.RIGHT]

/-! ## C1: `compute_solution` never fails -/

/-- C1: whatever the configured search returns, `compute_solution` returns
`True` and leaves the controller either holding a non-empty path with the
cursor at zero or in fallback mode; `has_solution()` is `True` right
afterwards.  (`is_thinking` is `false` between calls: it is initialised
`false`, every `compute_solution` call resets it before returning, and
`reset` clears it.) -/
theorem computeSolution_always_succeeds (c : AIController)
    (r : Option (List Direction)) (h : c.is_thinking = false) :
    (computeSolution c r).1 = true ∧
      hasSolution (computeSolution c r).2 = true ∧
      ((∃ p, r = some p ∧ 0 < p.length ∧
          (computeSolution c r).2.solution_path = p ∧
          (computeSolution c r).2.current_step = 0 ∧
          (computeSolution c r).2.using_fallback = false) ∨
        ((r = none ∨ r = some []) ∧
          (computeSolution c r).2.using_fallback = true)) := by
  unfold computeSolution
  rw [if_neg (by simp [h])]
  rcases r with - | sol
  · exact ⟨rfl, rfl, Or.inr ⟨Or.inl rfl, rfl⟩⟩
  · rcases sol with - | ⟨d, ds⟩
    · exact ⟨rfl, rfl, Or.inr ⟨Or.inr rfl, rfl⟩⟩
    · dsimp only
      rw [if_pos (show 0 < (d :: ds).length by simp)]
      exact ⟨rfl, by simp [hasSolution],
        Or.inl ⟨d :: ds, rfl, by simp, rfl, rfl, rfl⟩⟩

/-- C1 witness at a fresh controller and a one-move search result. -/
theorem computeSolution_always_succeeds_witness :
    (mkAIController "astar" "medium").is_thinking = false ∧
      ((computeSolution (mkAIController "astar" "medium") (some [.RIGHT])).1 = true ∧
        hasSolution
          (computeSolution (mkAIController "astar" "medium") (some [.RIGHT])).2 = true ∧
        ((∃ p, (some [Direction.RIGHT] : Option (List Direction)) = some p ∧ 0 < p.length ∧
            (computeSolution (mkAIController "astar" "medium") (some [.RIGHT])).2.solution_path = p ∧
            (computeSolution (mkAIController "astar" "medium") (some [.RIGHT])).2.current_step = 0 ∧
            (computeSolution (mkAIController "astar" "medium") (some [.RIGHT])).2.using_fallback = false) ∨
          (((some [Direction.RIGHT] : Option (List Direction)) = none ∨
              (some [Direction.RIGHT] : Option (List Direction)) = some []) ∧
            (computeSolution (mkAIController "astar" "medium") (some [.RIGHT])).2.using_fallback = true))) :=
  ⟨rfl, computeSolution_always_succeeds (mkAIController "astar" "medium") (some [.RIGHT]) rfl⟩

/-! ## C9: `compute_solution` on an already-solved state -/

/-- Characterises `isSolved` as set equality. -/
theorem isSolved_iff (s : GameState) : isSolved s = true ↔ s.crates = s.targets := by
  unfold isSolved
  exact decide_eq_true_iff

/-- The fallback finds no unsolved crate on a solved state. -/
theorem greedyNextMove_solved (gs : GameState) (h : isSolved gs = true) :
    greedyNextMove gs = none := by
  unfold greedyNextMove
  rw [if_pos]
  rw [(isSolved_iff gs).1 h]
  exact Finset.sdiff_self gs.targets

/-- C9: on an already-solved initial state every configured search, when
it terminates, yields no path or the empty path; `compute_solution` then
engages the fallback, `has_solution()` stays `True`, and `get_next_move`
returns `None` (leaving the controller unchanged) whenever the live state
is still solved. -/
theorem solved_initial_state_behavior (s0 : GameState) (hs : isSolved s0 = true) :
    (∀ maxN oracle fuel r res,
        astarRun maxN oracle fuel (initAState s0) = some (r, res) →
          res = none ∨ res = some []) ∧
      (∀ maxN oracle fuel r res,
        bfsRun maxN oracle fuel (initBState s0) = some (r, res) →
          res = none ∨ res = some []) ∧
      (∀ mD maxN oracle fuel r res,
        dfsRun mD maxN oracle fuel (initDState s0) = some (r, res) →
          res = none ∨ res = some []) ∧
      (∀ c : AIController, c.is_thinking = false →
        ∀ res : Option (List Direction), (res = none ∨ res = some []) →
          (computeSolution c res).2.using_fallback = true ∧
            hasSolution (computeSolution c res).2 = true) ∧
      (∀ c : AIController, c.using_fallback = true →
        ∀ gs : GameState, isSolved gs = true → getNextMove c gs = (none, c)) := by
  refine ⟨?_, ?_, ?_, ?_, ?_⟩
  · intro maxN oracle fuel r res h
    rcases fuel with - | n
    · cases h
    · rw [astarRun] at h
      cases ho : oracle ((initAState s0).expanded.length) <;>
        rw [ho] at h <;> simp [astarStep, initAState, bestOrNone, hs] at h
      · exact Or.inr h.2.symm
      · exact Or.inl h.2.symm
  · intro maxN oracle fuel r res h
    rcases fuel with - | n
    · cases h
    · rw [bfsRun] at h
      cases ho : oracle ((initBState s0).expanded.length) <;>
        rw [ho] at h <;> simp [bfsStep, initBState, bestOrNone, hs] at h
      · exact Or.inr h.2.symm
      · exact Or.inl h.2.symm
  · intro mD maxN oracle fuel r res h
    rcases fuel with - | n
    · cases h
    · rw [dfsRun] at h
      cases ho : oracle ((initDState s0).expanded.length) <;>
        rw [ho] at h <;> simp [dfsStep, initDState, bestOrNone, hs] at h
      · exact Or.inr h.2.symm
      · exact Or.inl h.2.symm
  · intro c hc res hres
    unfold computeSolution
    rw [if_neg (by simp [hc])]
    rcases hres with rfl | rfl
    · exact ⟨rfl, rfl⟩
    · exact ⟨rfl, rfl⟩
  · intro c hc gs hgs
    unfold getNextMove
    rw [if_pos (by simp [hc]), greedyNextMove_solved gs hgs]

/-- C9 witness at the concrete solved one-cell level `"*"`. -/
theorem solved_initial_state_behavior_witness :
    isSolved solvedState = true ∧
      ((∀ maxN oracle fuel r res,
          astarRun maxN oracle fuel (initAState solvedState) = some (r, res) →
            res = none ∨ res = some []) ∧
        (∀ maxN oracle fuel r res,
          bfsRun maxN oracle fuel (initBState solvedState) = some (r, res) →
            res = none ∨ res = some []) ∧
        (∀ mD maxN oracle fuel r res,
          dfsRun mD maxN oracle fuel (initDState solvedState) = some (r, res) →
            res = none ∨ res = some []) ∧
        (∀ c : AIController, c.is_thinking = false →
          ∀ res : Option (List Direction), (res = none ∨ res = some []) →
            (computeSolution c res).2.using_fallback = true ∧
              hasSolution (computeSolution c res).2 = true) ∧
        (∀ c : AIController, c.using_fallback = true →
          ∀ gs : GameState, isSolved gs = true → getNextMove c gs = (none, c))) :=
  ⟨by decide, solved_initial_state_behavior solvedState (by decide)⟩

theorem aExpand_spec (s : GameState) (g : ℕ) (path : List Direction) :
    ∀ (ds : List Direction) (pq : List AEntry) (visited : Finset Key) (counter : ℕ),
      ∃ newKeys : List Key,
        (aQueueKeys (aExpand s g path ds pq visited counter).1).Perm
            (aQueueKeys pq ++ newKeys) ∧
          newKeys.Nodup ∧
          (∀ k ∈ newKeys, k ∉ visited) ∧
          (∀ k, k ∈ (aExpand s g path ds pq visited counter).2.1 ↔
            k ∈ visited ∨ k ∈ newKeys) := by
  intro ds
  induction ds with
  | nil =>
      intro pq visited counter
      exact ⟨[], by simp [aExpand], List.nodup_nil, by simp, by simp [aExpand]⟩
  | cons d ds ih =>
      intro pq visited counter
      rw [aExpand]
      dsimp only
      split_ifs with hm hv
      · exact ih pq visited counter
      · obtain ⟨nk, hperm, hnd, hfresh, hvis⟩ :=
          ih (List.orderedInsert aEntryLE
              ⟨g + 1 + heuristic (move (clone s) d).1, counter + 1,
                (move (clone s) d).1, g + 1, path ++ [d]⟩ pq)
            (insert (stateHash (move (clone s) d).1) visited) (counter + 1)
        refine ⟨stateHash (move (clone s) d).1 :: nk, ?_, ?_, ?_, ?_⟩
        · refine hperm.trans ?_
          have h1 : (aQueueKeys (List.orderedInsert aEntryLE
              ⟨g + 1 + heuristic (move (clone s) d).1, counter + 1,
                (move (clone s) d).1, g + 1, path ++ [d]⟩ pq)).Perm
              (stateHash (move (clone s) d).1 :: aQueueKeys pq) := by
            unfold aQueueKeys
            exact (List.perm_orderedInsert aEntryLE _ pq).map _
          refine (h1.append_right nk).trans ?_
          exact (List.perm_middle).symm
        · refine List.nodup_cons.2 ⟨fun hmem => ?_, hnd⟩
          exact hfresh _ hmem (Finset.mem_insert_self _ _)
        · intro k hk
          rcases List.mem_cons.1 hk with rfl | hk'
          · exact hv
          · exact fun hkv => hfresh k hk' (Finset.mem_insert_of_mem hkv)
        · intro k
          rw [hvis k, Finset.mem_insert]
          constructor
          · rintro ((rfl | h) | h)
            · exact Or.inr (List.mem_cons_self _ _)
            · exact Or.inl h
            · exact Or.inr (List.mem_cons_of_mem _ h)
          · rintro (h | h)
            · exact Or.inl (Or.inr h)
            · rcases List.mem_cons.1 h with rfl | h'
              · exact Or.inl (Or.inl rfl)
              · exact Or.inr h'
      · exact ih pq visited counter

/-- Multiset reshuffle: popping the head key `ke` to the back of the
expanded list and appending freshly enqueued keys is a permutation. -/
theorem perm_pop_push {α : Type} (qk nk ex : List α) (ke : α) :
    ((qk ++ nk) ++ (ex ++ [ke])).Perm (nk ++ (ke :: (qk ++ ex))) := by
  have h : ke :: (qk ++ ex) = [ke] ++ (qk ++ ex) := rfl
  rw [h, ← Multiset.coe_eq_coe]
  simp only [← Multiset.coe_add]
  abel

theorem astarStep_inv (maxNodes : ℕ) (timedOut : Bool) (st : AState)
    (h : AInv st) :
    (∀ st', astarStep maxNodes timedOut st = .next st' → AInv st') ∧
      (∀ r res fin, astarStep maxNodes timedOut st = .done r res fin →
        (aQueueKeys fin.pq ++ fin.expanded).Nodup) := by
  obtain ⟨hnd, hvis⟩ := h
  unfold astarStep
  rcases hq : st.pq with - | ⟨e, rest⟩ <;> dsimp only
  · refine ⟨fun st' h' => ?_, fun r res fin h' => ?_⟩
    · cases h'
    · cases h'
      exact hnd
  · rcases timedOut with - | -
    · rw [if_neg Bool.false_ne_true]
      rw [hq] at hnd hvis
      have hndold : (stateHash e.state :: (aQueueKeys rest ++ st.expanded)).Nodup := by
        simpa [aQueueKeys] using hnd
      have hvisold : ∀ k ∈ stateHash e.state :: (aQueueKeys rest ++ st.expanded),
          k ∈ st.visited := by
        intro k hk
        exact hvis k (by simpa [aQueueKeys] using hk)
      -- the popped key moves from the queue to the expanded list
      have hperm0 : (stateHash e.state :: (aQueueKeys rest ++ st.expanded)).Perm
          (aQueueKeys rest ++ (st.expanded ++ [stateHash e.state])) := by
        have h2 : stateHash e.state :: (aQueueKeys rest ++ st.expanded) =
            [stateHash e.state] ++ (aQueueKeys rest ++ st.expanded) := rfl
        rw [h2, ← Multiset.coe_eq_coe]
        simp only [← Multiset.coe_add]
        abel
      have hnd' : (aQueueKeys rest ++ (st.expanded ++ [stateHash e.state])).Nodup :=
        hperm0.nodup hndold
      obtain ⟨nk, hperm, hndk, hfresh, hvmem⟩ :=
        aExpand_spec e.state e.g e.path dirList rest st.visited st.counter
      have hpermA : (aQueueKeys
            (aExpand e.state e.g e.path dirList rest st.visited st.counter).1 ++
            (st.expanded ++ [stateHash e.state])).Perm
          (nk ++ (stateHash e.state :: (aQueueKeys rest ++ st.expanded))) :=
        (hperm.append_right _).trans
          (perm_pop_push (aQueueKeys rest) nk st.expanded (stateHash e.state))
      have hndA : (aQueueKeys
            (aExpand e.state e.g e.path dirList rest st.visited st.counter).1 ++
            (st.expanded ++ [stateHash e.state])).Nodup := by
        refine hpermA.symm.nodup (List.nodup_append.2 ⟨hndk, hndold, ?_⟩)
        intro k hk hk'
        exact hfresh k hk (hvisold k hk')
      have hvisA : ∀ k ∈ aQueueKeys
            (aExpand e.state e.g e.path dirList rest st.visited st.counter).1 ++
            (st.expanded ++ [stateHash e.state]),
          k ∈ (aExpand e.state e.g e.path dirList rest st.visited st.counter).2.1 := by
        intro k hk
        rcases List.mem_append.1 (hpermA.mem_iff.1 hk) with hk' | hk'
        · exact (hvmem k).2 (Or.inr hk')
        · exact (hvmem k).2 (Or.inl (hvisold k hk'))
      by_cases hsolved : isSolved e.state = true
      · simp only [if_pos hsolved]
        refine ⟨fun st' h' => ?_, fun r res fin h' => ?_⟩
        · cases h'
        · cases h'
          exact hnd'
      · simp only [if_neg hsolved]
        by_cases hlimit : maxNodes ≤ (st.expanded ++ [stateHash e.state]).length
        · simp only [if_pos hlimit]
          refine ⟨fun st' h' => ?_, fun r res fin h' => ?_⟩
          · cases h'
          · cases h'
            exact hndA
        · simp only [if_neg hlimit]
          refine ⟨fun st' h' => ?_, fun r res fin h' => ?_⟩
          · cases h'
            exact ⟨hndA, hvisA⟩
          · cases h'
    · rw [if_pos rfl]
      refine ⟨fun st' h' => ?_, fun r res fin h' => ?_⟩
      · cases h'
      · cases h'
        exact hnd

/-- The iterated A* loop keeps queue and expanded keys pairwise distinct. -/
theorem astarIter_nodup (maxNodes : ℕ) (oracle : ℕ → Bool) :
    ∀ (n : ℕ) (st : AState), AInv st →
      (aQueueKeys (astarIter maxNodes oracle n st).pq ++
        (astarIter maxNodes oracle n st).expanded).Nodup := by
  intro n
  induction n with
  | zero => exact fun st h => h.1
  | succ n ih =>
      intro st h
      rw [astarIter]
      rcases hstep : astarStep maxNodes (oracle st.expanded.length) st
          with st' | ⟨r, res, fin⟩ <;> dsimp only
      · exact ih st' ((astarStep_inv _ _ st h).1 st' hstep)
      · exact (astarStep_inv _ _ st h).2 r res fin hstep

/-- C4: within one A* search call, no canonical key is ever expanded
twice: however long the loop runs (any fuel, any timeout pattern, any node
budget), the keys of the popped-and-expanded states are pairwise
distinct. -/
theorem astar_no_reexpansion (s0 : GameState) (maxNodes n : ℕ)
    (oracle : ℕ → Bool) :
    ((astarIter maxNodes oracle n (initAState s0)).expanded).Nodup := by
  have hinit : AInv (initAState s0) := by
    constructor
    · simp [initAState, aQueueKeys]
    · intro k hk
      simp only [initAState, aQueueKeys, List.map_cons, List.map_nil,
        List.append_nil, List.mem_cons, List.not_mem_nil, or_false] at hk
      simp [initAState, hk]
  exact (astarIter_nodup maxNodes oracle n (initAState s0) hinit).of_append_right

theorem move_statics (s : GameState) (d : Direction) :
    statics (move s d).1 = statics s := by
  unfold move statics
  dsimp only
  split_ifs <;> rfl

/-- Key-level simulation of one move. -/
theorem keyMove_spec (s : GameState) (d : Direction) :
    keyMove (statics s) (stateHash s) d =
      if (move s d).2 then some (stateHash (move s d).1) else none := by
  unfold keyMove move stateHash statics inBoundsS inBounds
  dsimp only
  split_ifs <;> first | rfl | tauto

theorem applyPath_key (p : List Direction) :
    ∀ (s t : GameState), applyPath s p = some t →
      applyKeyPath (statics s) (stateHash s) p = some (stateHash t) ∧
        statics t = statics s ∧ t.targets = s.targets := by
  induction p with
  | nil =>
      intro s t h
      cases h
      exact ⟨rfl, rfl, rfl⟩
  | cons d ds ih =>
      intro s t h
      rw [applyPath] at h
      rcases hm : (move s d).2 with - | -
      · rw [hm] at h
        cases h
      · rw [hm] at h
        simp only [if_pos rfl] at h
        obtain ⟨hk, hst, htg⟩ := ih (move s d).1 t h
        rw [applyKeyPath]
        rw [keyMove_spec s d, hm]
        simp only [if_pos rfl]
        rw [move_statics s d] at hk hst
        exact ⟨hk, hst, htg.trans (move_targets_eq s d)⟩

theorem applyKeyPath_append (σ : Statics) (p q : List Direction) :
    ∀ k, applyKeyPath σ k (p ++ q) =
      (applyKeyPath σ k p).bind fun k1 => applyKeyPath σ k1 q := by
  induction p with
  | nil => intro k; rfl
  | cons d ds ih =>
      intro k
      rw [List.cons_append, applyKeyPath, applyKeyPath]
      rcases keyMove σ k d with - | k'
      · rfl
      · exact ih k'

theorem applyPath_append (p q : List Direction) :
    ∀ s, applyPath s (p ++ q) =
      (applyPath s p).bind fun t => applyPath t q := by
  induction p with
  | nil => intro s; rfl
  | cons d ds ih =>
      intro s
      rw [List.cons_append, applyPath, applyPath]
      rcases hm : (move s d).2 with - | -
      · simp [hm]
      · simp only [hm, if_pos]
        exact ih (move s d).1

theorem reachInN_zero (σ : Statics) (k0 k : Key) :
    ReachInN σ k0 k 0 ↔ k = k0 := by
  constructor
  · rintro ⟨p, hp, happ⟩
    rw [List.length_eq_zero] at hp
    subst hp
    cases happ
    rfl
  · rintro rfl
    exact ⟨[], rfl, rfl⟩

theorem exists_keyDist_le (σ : Statics) (k0 k : Key) :
    ∀ n, ReachInN σ k0 k n → ∃ m ≤ n, KeyDist σ k0 k m := by
  intro n
  induction n using Nat.strong_induction_on with
  | _ n ih =>
      intro hr
      by_cases hmin : ∀ m < n, ¬ ReachInN σ k0 k m
      · exact ⟨n, le_refl n, hr, hmin⟩
      · push_neg at hmin
        obtain ⟨m, hm, hrm⟩ := hmin
        obtain ⟨m', hm', hd⟩ := ih m hm hrm
        exact ⟨m', le_trans hm' (le_of_lt hm), hd⟩

theorem keyDist_unique (σ : Statics) (k0 k : Key) (m m' : ℕ)
    (h : KeyDist σ k0 k m) (h' : KeyDist σ k0 k m') : m = m' := by
  rcases Nat.lt_trichotomy m m' with hlt | heq | hgt
  · exact absurd h.1 (h'.2 m hlt)
  · exact heq
  · exact absurd h'.1 (h.2 m' hgt)

theorem keyDist_succ_parent (σ : Statics) (k0 k : Key) (n : ℕ)
    (h : KeyDist σ k0 k (n + 1)) :
    ∃ kp d, keyMove σ kp d = some k ∧ KeyDist σ k0 kp n := by
  obtain ⟨⟨p, hlen, happ⟩, hmin⟩ := h
  rcases List.eq_nil_or_concat p with rfl | ⟨q, d, rfl⟩
  · cases hlen
  · rw [List.concat_eq_append] at happ
    rw [applyKeyPath_append] at happ
    rcases hq : applyKeyPath σ k0 q with - | kp
    · rw [hq] at happ
      cases happ
    · rw [hq] at happ
      rw [show ((some kp).bind fun k1 => applyKeyPath σ k1 [d]) =
        applyKeyPath σ kp [d] from rfl] at happ
      rw [applyKeyPath] at happ
      rcases hkm : keyMove σ kp d with - | k'
      · rw [hkm] at happ
        cases happ
      · rw [hkm] at happ
        cases happ
        have hqlen : q.length = n := by
          rw [List.concat_eq_append, List.length_append] at hlen
          simpa using hlen
        obtain ⟨m, hm, hdp⟩ := exists_keyDist_le σ k0 kp q.length ⟨q, rfl, hq⟩
        have hmn : m = n := by
          -- a shorter path to the parent would shorten the path to `k`
          by_contra hne
          have hmlt : m < n := by omega
          obtain ⟨q', hq'len, hq'⟩ := hdp.1
          have hreach : ReachInN σ k0 k (m + 1) := by
            refine ⟨q' ++ [d], by simp [hq'len], ?_⟩
            rw [applyKeyPath_append, hq']
            rw [show ((some kp).bind fun k1 => applyKeyPath σ k1 [d]) =
              applyKeyPath σ kp [d] from rfl]
            rw [applyKeyPath, hkm]
            rfl
          exact hmin (m + 1) (by omega) hreach
        subst hmn
        exact ⟨kp, d, hkm, hdp⟩

theorem bExpand_spec (s : GameState) (path : List Direction) :
    ∀ (ds : List Direction) (q : List (GameState × List Direction))
      (v : Finset Key),
      ∃ newEntries : List (GameState × List Direction),
        (bExpand s path ds q v).1 = q ++ newEntries ∧
          (∀ k, k ∈ (bExpand s path ds q v).2 ↔
            k ∈ v ∨ k ∈ bQueueKeys newEntries) ∧
          (bQueueKeys newEntries).Nodup ∧
          (∀ k ∈ bQueueKeys newEntries, k ∉ v) ∧
          (∀ e ∈ newEntries, ∃ d, (move s d).2 = true ∧
            e.1 = (move s d).1 ∧ e.2 = path ++ [d]) ∧
          (∀ d, d ∈ ds → (move s d).2 = true →
            stateHash (move s d).1 ∈ (bExpand s path ds q v).2) := by
  intro ds
  induction ds with
  | nil =>
      intro q v
      exact ⟨[], by simp [bExpand], by simp [bExpand, bQueueKeys],
        by simp [bQueueKeys], by simp [bQueueKeys], by simp, by simp⟩
  | cons d ds ih =>
      intro q v
      rw [bExpand]
      dsimp only
      split_ifs with hm hv
      · -- move succeeds but the key is already visited
        obtain ⟨ne, h1, h2, h3, h4, h5, h6⟩ := ih q v
        refine ⟨ne, h1, h2, h3, h4, h5, fun d' hd' hm' => ?_⟩
        rcases List.mem_cons.1 hd' with rfl | hd''
        · exact (h2 _).2 (Or.inl hv)
        · exact h6 d' hd'' hm'
      · -- move succeeds into a fresh key
        obtain ⟨ne, h1, h2, h3, h4, h5, h6⟩ :=
          ih (q ++ [((move (clone s) d).1, path ++ [d])])
            (insert (stateHash (move (clone s) d).1) v)
        refine ⟨((move (clone s) d).1, path ++ [d]) :: ne, ?_, ?_, ?_, ?_, ?_, ?_⟩
        · rw [h1, List.append_assoc]
          rfl
        · intro k
          rw [h2 k, Finset.mem_insert]
          unfold bQueueKeys
          simp only [List.map_cons, List.mem_cons]
          tauto
        · refine List.nodup_cons.2 ⟨fun hmem => ?_, h3⟩
          exact h4 _ hmem (Finset.mem_insert_self _ _)
        · intro k hk
          rcases List.mem_cons.1 hk with rfl | hk'
          · exact hv
          · exact fun hkv => h4 k hk' (Finset.mem_insert_of_mem hkv)
        · intro e he
          rcases List.mem_cons.1 he with rfl | he'
          · exact ⟨d, hm, rfl, rfl⟩
          · exact h5 e he'
        · intro d' hd' hm'
          rcases List.mem_cons.1 hd' with rfl | hd''
          · exact (h2 _).2 (Or.inl (Finset.mem_insert_self _ _))
          · exact h6 d' hd'' hm'
      · -- move fails; direction contributes nothing
        obtain ⟨ne, h1, h2, h3, h4, h5, h6⟩ := ih q v
        refine ⟨ne, h1, h2, h3, h4, h5, fun d' hd' hm' => ?_⟩
        rcases List.mem_cons.1 hd' with rfl | hd''
        · exact absurd hm' (by simpa [clone] using hm)
        · exact h6 d' hd'' hm'

theorem mem_dirList (d : Direction) : d ∈ dirList := by
  cases d <;> simp [dirList]

theorem applyPath_single (s : GameState) (d : Direction)
    (h : (move s d).2 = true) : applyPath s [d] = some (move s d).1 := by
  rw [applyPath]
  simp [h, applyPath]

/-- Any key whose distance is at most the front entry's path length is
already visited: its parent (if any) is expanded by the frontier
invariant, and expanded keys have visited successors. -/
theorem dist_le_front_visited (s0 : GameState) (st : BState) (hinv : BInv s0 st)
    (e : GameState × List Direction) (hhead : st.queue.head? = some e)
    (k : Key) (m : ℕ)
    (hd : KeyDist (statics s0) (stateHash s0) k m)
    (hm : m ≤ e.2.length) : k ∈ st.visited := by
  have hmem : e ∈ st.queue := by
    rcases hq : st.queue with - | ⟨e1, rest⟩
    · rw [hq] at hhead; cases hhead
    · rw [hq] at hhead
      cases hhead
      exact List.mem_cons_self ..
  rcases m with - | m'
  · have hk0 : k = stateHash s0 := (reachInN_zero ..).1 hd.1
    subst hk0
    rcases Nat.eq_zero_or_pos e.2.length with hlen | hlen
    · -- the front entry has the empty path: it is `s0` itself
      have hlen0 : e.2 = [] := List.length_eq_zero.1 hlen
      have hpath := hinv.entries e hmem
      rw [hlen0] at hpath
      have he1 : s0 = e.1 := Option.some.inj hpath
      refine (hinv.vis_iff _).2 (Or.inr ?_)
      rw [he1]
      exact List.mem_map_of_mem _ hmem
    · exact (hinv.vis_iff _).2
        (Or.inl (hinv.frontier_head e hhead _ 0 hd (by omega)))
  · obtain ⟨kp, d, hkm, hdp⟩ := keyDist_succ_parent _ _ _ _ hd
    have hpexp : kp ∈ st.expanded :=
      hinv.frontier_head e hhead kp m' hdp (by omega)
    exact hinv.closed kp hpexp d k hkm

/-- The heart of C5: expanding the front entry of a BFS queue that is not
solved preserves the BFS invariant (for any best-path bookkeeping). -/
theorem bfs_expand_preserves (s0 : GameState) (st : BState) (hinv : BInv s0 st)
    (s : GameState) (p : List Direction)
    (rest : List (GameState × List Direction))
    (hq : st.queue = (s, p) :: rest)
    (hnotsolved : ¬ isSolved s = true) (bp : List Direction) :
    BInv s0 { queue := (bExpand s p dirList rest st.visited).1,
              visited := (bExpand s p dirList rest st.visited).2,
              expanded := st.expanded ++ [stateHash s],
              bestPath := bp } := by
  obtain ⟨ne, hQ, hV, hndk, hfresh, hsucc, hcover⟩ :=
    bExpand_spec s p dirList rest st.visited
  have hheadmem : (s, p) ∈ st.queue := by rw [hq]; exact List.mem_cons_self ..
  have hhead : st.queue.head? = some (s, p) := by rw [hq]; rfl
  have hrestmem : ∀ e ∈ rest, e ∈ st.queue := by
    intro e he; rw [hq]; exact List.mem_cons_of_mem _ he
  have hpath : applyPath s0 p = some s := hinv.entries _ hheadmem
  obtain ⟨hskey, hss, hstg⟩ := applyPath_key p s0 s hpath
  have hdhead : KeyDist (statics s0) (stateHash s0) (stateHash s) p.length := by
    have := hinv.dists _ hheadmem
    rwa [show ((s, p) : GameState × List Direction).1 = s from rfl,
      show ((s, p) : GameState × List Direction).2 = p from rfl] at this
  have hsortedq := hinv.sorted
  rw [hq] at hsortedq
  simp only [List.map_cons] at hsortedq
  rw [List.sorted_cons] at hsortedq
  obtain ⟨hge, hsortedrest⟩ := hsortedq
  have hrest_ge : ∀ e ∈ rest, p.length ≤ e.2.length := by
    intro e he
    exact hge _ (List.mem_map_of_mem _ he)
  have hrest_le : ∀ e ∈ rest, e.2.length ≤ p.length + 1 := by
    intro e he
    exact hinv.close _ hheadmem _ (hrestmem e he)
  -- facts about the new entries
  have hne_path : ∀ e ∈ ne, applyPath s0 e.2 = some e.1 := by
    intro e he
    obtain ⟨d, hmv, he1, he2⟩ := hsucc e he
    rw [he2, applyPath_append, hpath]
    rw [show ((some s).bind fun t => applyPath t [d]) = applyPath s [d] from rfl]
    rw [applyPath_single s d hmv, he1]
  have hne_len : ∀ e ∈ ne, e.2.length = p.length + 1 := by
    intro e he
    obtain ⟨d, hmv, he1, he2⟩ := hsucc e he
    simp [he2]
  have hne_fresh : ∀ e ∈ ne, stateHash e.1 ∉ st.visited := by
    intro e he
    exact hfresh _ (List.mem_map_of_mem _ he)
  have hne_dist : ∀ e ∈ ne,
      KeyDist (statics s0) (stateHash s0) (stateHash e.1) (p.length + 1) := by
    intro e he
    obtain ⟨hkey, -, -⟩ := applyPath_key e.2 s0 e.1 (hne_path e he)
    constructor
    · exact ⟨e.2, hne_len e he, hkey⟩
    · intro m hm hr
      obtain ⟨m', hm', hd'⟩ := exists_keyDist_le _ _ _ _ hr
      exact hne_fresh e he
        (dist_le_front_visited s0 st hinv (s, p) hhead _ m' hd'
          (by show m' ≤ p.length; omega))
  -- the new queue and its keys
  have hkeys : bQueueKeys (rest ++ ne) = bQueueKeys rest ++ bQueueKeys ne := by
    unfold bQueueKeys
    exact List.map_append ..
  have holdvis : ∀ k, k ∈ st.visited ↔
      (k ∈ st.expanded ∨ k ∈ stateHash s :: bQueueKeys rest) := by
    intro k
    rw [hinv.vis_iff k, hq]
    rfl
  have hnodupold : (stateHash s :: (bQueueKeys rest ++ st.expanded)).Nodup := by
    have := hinv.nodup
    rw [hq] at this
    simpa [bQueueKeys] using this
  -- sortedness of the new queue
  have hsorted' : List.Sorted (fun a b => a ≤ b)
      ((rest ++ ne).map fun e => e.2.length) := by
    rw [List.map_append]
    refine List.pairwise_append.2 ⟨hsortedrest, ?_, ?_⟩
    · have hrep : (ne.map fun e => e.2.length) =
          List.replicate (ne.map fun e => e.2.length).length (p.length + 1) := by
        refine List.eq_replicate_of_mem ?_
        intro b hb
        obtain ⟨e, he, rfl⟩ := List.mem_map.1 hb
        exact hne_len e he
      rw [hrep]
      exact (List.pairwise_replicate).2 (Or.inr (le_refl _))
    · intro a ha b hb
      obtain ⟨e1, he1, rfl⟩ := List.mem_map.1 ha
      obtain ⟨e2, he2, rfl⟩ := List.mem_map.1 hb
      rw [hne_len e2 he2]
      exact hrest_le e1 he1
  -- visited bookkeeping
  have hksvis : stateHash s ∈ st.visited :=
    (holdvis _).2 (Or.inr (List.mem_cons_self ..))
  have hsucc_vis : ∀ d k', keyMove (statics s0) (stateHash s) d = some k' →
      k' ∈ (bExpand s p dirList rest st.visited).2 := by
    intro d k' hkm
    have hspec := keyMove_spec s d
    rw [hss] at hspec
    rw [hspec] at hkm
    rcases hmv : (move s d).2 with - | -
    · rw [hmv] at hkm
      cases hkm
    · rw [hmv, if_pos rfl] at hkm
      cases hkm
      exact hcover d (mem_dirList d) hmv
  refine ⟨?_, ?_, ?_, ?_, ?_, ?_, ?_, ?_, ?_, ?_⟩
  · -- entries
    intro e he
    dsimp only at he
    rw [hQ] at he
    rcases List.mem_append.1 he with he' | he'
    · exact hinv.entries _ (hrestmem e he')
    · exact hne_path e he'
  · -- dists
    intro e he
    dsimp only at he
    rw [hQ] at he
    rcases List.mem_append.1 he with he' | he'
    · exact hinv.dists _ (hrestmem e he')
    · rw [hne_len e he']
      exact hne_dist e he'
  · -- sorted
    dsimp only
    rw [hQ]
    exact hsorted'
  · -- close
    intro e he e' he'
    dsimp only at he he'
    rw [hQ] at he he'
    rcases List.mem_append.1 he with he1 | he1 <;>
      rcases List.mem_append.1 he' with he2 | he2
    · exact hinv.close _ (hrestmem e he1) _ (hrestmem e' he2)
    · have := hrest_ge e he1
      rw [hne_len e' he2]
      omega
    · have := hrest_le e' he2
      rw [hne_len e he1]
      omega
    · rw [hne_len e he1, hne_len e' he2]
      omega
  · -- vis_iff
    intro k
    dsimp only
    rw [hQ, hV k, holdvis k, hkeys]
    simp only [List.mem_append, List.mem_cons, List.mem_singleton,
      List.not_mem_nil, or_false]
    tauto
  · -- nodup
    dsimp only
    rw [hQ, hkeys]
    refine (perm_pop_push (bQueueKeys rest) (bQueueKeys ne) st.expanded
      (stateHash s)).symm.nodup ?_
    refine List.nodup_append.2 ⟨hndk, hnodupold, ?_⟩
    intro a ha hb
    refine hfresh a ha ?_
    rcases List.mem_cons.1 hb with rfl | hb'
    · exact hksvis
    · rcases List.mem_append.1 hb' with hb2 | hb2
      · exact (holdvis a).2 (Or.inr (List.mem_cons_of_mem _ hb2))
      · exact (holdvis a).2 (Or.inl hb2)
  · -- closed
    intro k hk d k' hkm
    dsimp only at hk ⊢
    rcases List.mem_append.1 hk with hke | hks
    · exact (hV k').2 (Or.inl (hinv.closed k hke d k' hkm))
    · have hkeq : k = stateHash s := List.mem_singleton.1 hks
      subst hkeq
      exact hsucc_vis d k' hkm
  · -- frontier_empty
    intro hq' k m hd
    dsimp only at hq' ⊢
    rw [hQ] at hq'
    obtain ⟨hrest0, hne0⟩ := List.append_eq_nil.1 hq'
    have hVeq : ∀ a, a ∈ (bExpand s p dirList rest st.visited).2 ↔
        a ∈ st.visited := by
      intro a
      rw [hV a, hne0]
      simp [bQueueKeys]
    have hvis_closed : ∀ a, a ∈ st.visited → a ∈ st.expanded ++ [stateHash s] := by
      intro a hav
      rcases (holdvis a).1 hav with hae | haq
      · exact List.mem_append.2 (Or.inl hae)
      · rcases List.mem_cons.1 haq with rfl | har
        · exact List.mem_append.2 (Or.inr (List.mem_singleton.2 rfl))
        · rw [hrest0] at har
          simp [bQueueKeys] at har
    clear hq'
    induction m using Nat.strong_induction_on generalizing k with
    | _ m ihm =>
        rcases m with - | m'
        · exact hvis_closed k
            (dist_le_front_visited s0 st hinv (s, p) hhead k 0 hd (by omega))
        · obtain ⟨kp, d, hkm, hdp⟩ := keyDist_succ_parent _ _ _ _ hd
          have hkp : kp ∈ st.expanded ++ [stateHash s] := ihm m' (by omega) kp hdp
          rcases List.mem_append.1 hkp with hke | hks
          · exact hvis_closed k (hinv.closed kp hke d k hkm)
          · have hkps : kp = stateHash s := List.mem_singleton.1 hks
            subst hkps
            exact hvis_closed k ((hVeq k).1 (hsucc_vis d k hkm))
  · -- frontier_head
    intro e' hhead' k m hd hm
    dsimp only at hhead' hm ⊢
    rw [hQ] at hhead'
    have he'mem : e' ∈ rest ++ ne := List.mem_of_mem_head? hhead'
    have hlen' : e'.2.length ≤ p.length + 1 := by
      rcases List.mem_append.1 he'mem with he2 | he2
      · exact hrest_le e' he2
      · rw [hne_len e' he2]
    have hmle : m ≤ p.length := by omega
    have hkvis : k ∈ st.visited :=
      dist_le_front_visited s0 st hinv (s, p) hhead k m hd hmle
    rcases (holdvis k).1 hkvis with hke | hkq
    · exact List.mem_append.2 (Or.inl hke)
    · rcases List.mem_cons.1 hkq with rfl | hkr
      · exact List.mem_append.2 (Or.inr (List.mem_singleton.2 rfl))
      · -- a queue entry behind the front would have to be closer than the
        -- front, contradicting sortedness
        exfalso
        obtain ⟨e3, he3, hke3⟩ := List.mem_map.1 hkr
        have hd3 := hinv.dists e3 (hrestmem e3 he3)
        rw [hke3] at hd3
        have hm3 : e3.2.length = m := keyDist_unique _ _ _ _ _ hd3 hd
        rcases hq2 : rest ++ ne with - | ⟨eh, tail⟩
        · rw [hq2] at hhead'
          cases hhead'
        · rw [hq2] at hhead'
          have heh : eh = e' := Option.some.inj hhead'
          subst heh
          have hsorted2 := hsorted'
          rw [hq2, List.map_cons, List.sorted_cons] at hsorted2
          have he3' : e3 ∈ eh :: tail := hq2 ▸ List.mem_append.2 (Or.inl he3)
          rcases List.mem_cons.1 he3' with rfl | he3t
          · omega
          · have := hsorted2.1 _ (List.mem_map_of_mem _ he3t)
            omega
  · -- unsolved
    intro k hk
    dsimp only at hk
    rcases List.mem_append.1 hk with hke | hks
    · exact hinv.unsolved k hke
    · have hkeq : k = stateHash s := List.mem_singleton.1 hks
      subst hkeq
      intro heq
      exact hnotsolved ((isSolved_iff s).2 (heq.trans hstg.symm))

theorem BInv_init (s0 : GameState) : BInv s0 (initBState s0) := by
  refine ⟨?_, ?_, ?_, ?_, ?_, ?_, ?_, ?_, ?_, ?_⟩
  · intro e he
    rcases List.mem_singleton.1 he with rfl
    rfl
  · intro e he
    rcases List.mem_singleton.1 he with rfl
    exact ⟨(reachInN_zero ..).2 rfl, fun m hm => absurd hm (Nat.not_lt_zero m)⟩
  · simp [initBState]
  · intro e he e' he'
    rcases List.mem_singleton.1 he with rfl
    rcases List.mem_singleton.1 he' with rfl
    omega
  · intro k
    simp [initBState, bQueueKeys]
  · simp [initBState, bQueueKeys]
  · intro k hk
    simp [initBState] at hk
  · intro h
    simp [initBState] at h
  · intro e he k m hd hm
    simp only [initBState, List.head?_cons, Option.some.injEq] at he
    rw [← he] at hm
    simp at hm
  · intro k hk
    simp [initBState] at hk

/-- One BFS step: continuing preserves the invariant; terminating with
`solved` yields a shortest solving path, and with `exhausted` certifies
the puzzle unsolvable. -/
theorem bfsStep_main (s0 : GameState) (maxN : ℕ) (timedOut : Bool)
    (st : BState) (hinv : BInv s0 st) :
    (∀ st', bfsStep maxN timedOut st = .next st' → BInv s0 st') ∧
      (∀ r res fin, bfsStep maxN timedOut st = .done r res fin →
        (r = .solved → ∃ p, res = some p ∧ solves s0 p ∧
          ∀ q, solves s0 q → p.length ≤ q.length) ∧
        (r = .exhausted → ∀ q, ¬ solves s0 q)) := by
  unfold bfsStep
  rcases hq : st.queue with - | ⟨⟨s, p⟩, rest⟩ <;> dsimp only
  · -- queue exhausted: every reachable key is expanded and unsolved
    refine ⟨fun st' h' => ?_, fun r res fin h' => ?_⟩
    · cases h'
    · cases h'
      refine ⟨fun hr => (nomatch hr), fun hr q hsol => ?_⟩
      obtain ⟨t, happ, hsolved⟩ := hsol
      obtain ⟨hkey, hst, htg⟩ := applyPath_key q s0 t happ
      obtain ⟨m, hm, hdist⟩ := exists_keyDist_le _ _ _ _ ⟨q, rfl, hkey⟩
      refine hinv.unsolved _ (hinv.frontier_empty hq _ m hdist) ?_
      have hct : t.crates = t.targets := (isSolved_iff t).1 hsolved
      rw [show (stateHash t).2 = t.crates from rfl, hct, htg]
  · have hheadmem : (s, p) ∈ st.queue := by rw [hq]; exact List.mem_cons_self ..
    have hhead : st.queue.head? = some (s, p) := by rw [hq]; rfl
    have hpath : applyPath s0 p = some s := hinv.entries _ hheadmem
    rcases timedOut with - | -
    · rw [if_neg Bool.false_ne_true]
      by_cases hsolved : isSolved s = true
      · simp only [if_pos hsolved]
        refine ⟨fun st' h' => ?_, fun r res fin h' => ?_⟩
        · cases h'
        · cases h'
          refine ⟨fun _ => ⟨p, rfl, ⟨s, hpath, hsolved⟩, ?_⟩, fun hr => (nomatch hr)⟩
          intro q hsol
          obtain ⟨t, happ, hsolt⟩ := hsol
          obtain ⟨hkey, hstt, htgt⟩ := applyPath_key q s0 t happ
          obtain ⟨m, hm, hdist⟩ := exists_keyDist_le _ _ _ _ ⟨q, rfl, hkey⟩
          by_contra hlt
          push_neg at hlt
          have hmlt : m < p.length := by omega
          have hexp := hinv.frontier_head (s, p) hhead _ m hdist hmlt
          refine hinv.unsolved _ hexp ?_
          have hct : t.crates = t.targets := (isSolved_iff t).1 hsolt
          rw [show (stateHash t).2 = t.crates from rfl, hct, htgt]
      · simp only [if_neg hsolved]
        have hpres := bfs_expand_preserves s0 st hinv s p rest hq hsolved
        by_cases hlimit : maxN ≤ (st.expanded ++ [stateHash s]).length
        · simp only [if_pos hlimit]
          refine ⟨fun st' h' => ?_, fun r res fin h' => ?_⟩
          · cases h'
          · cases h'
            exact ⟨fun hr => (nomatch hr), fun hr => (nomatch hr)⟩
        · simp only [if_neg hlimit]
          refine ⟨fun st' h' => ?_, fun r res fin h' => ?_⟩
          · cases h'
            exact hpres _
          · cases h'
    · rw [if_pos rfl]
      refine ⟨fun st' h' => ?_, fun r res fin h' => ?_⟩
      · cases h'
      · cases h'
        exact ⟨fun hr => (nomatch hr), fun hr => (nomatch hr)⟩

/-- Soundness of a full BFS run relative to the invariant. -/
theorem bfsRun_sound (s0 : GameState) :
    ∀ (fuel maxN : ℕ) (oracle : ℕ → Bool) (st : BState), BInv s0 st →
      ∀ r res, bfsRun maxN oracle fuel st = some (r, res) →
        (r = .solved → ∃ p, res = some p ∧ solves s0 p ∧
          ∀ q, solves s0 q → p.length ≤ q.length) ∧
        (r = .exhausted → ∀ q, ¬ solves s0 q) := by
  intro fuel
  induction fuel with
  | zero =>
      intro maxN oracle st hinv r res h
      cases h
  | succ n ih =>
      intro maxN oracle st hinv r res h
      rw [bfsRun] at h
      rcases hstep : bfsStep maxN (oracle st.expanded.length) st
        with st' | ⟨r', res', fin⟩
      · rw [hstep] at h
        exact ih maxN oracle st'
          ((bfsStep_main s0 maxN _ st hinv).1 st' hstep) r res h
      · rw [hstep] at h
        cases h
        exact (bfsStep_main s0 maxN _ st hinv).2 _ _ fin hstep

/-- C5: a BFS run that terminates without a budget cut (reason `solved`
or frontier exhaustion — time and node budgets effectively infinite) on a
solvable puzzle returns a solving path of minimal length among all
solving move sequences. -/
theorem bfs_exhaustive_optimal (s0 : GameState) (maxN fuel : ℕ)
    (oracle : ℕ → Bool) (r : TermReason) (res : Option (List Direction))
    (hrun : bfsRun maxN oracle fuel (initBState s0) = some (r, res))
    (hfull : r = TermReason.solved ∨ r = TermReason.exhausted)
    (hsolvable : ∃ q, solves s0 q) :
    ∃ p, res = some p ∧ solves s0 p ∧
      ∀ q, solves s0 q → p.length ≤ q.length := by
  have hmain := bfsRun_sound s0 fuel maxN oracle (initBState s0)
    (BInv_init s0) r res hrun
  rcases hfull with rfl | rfl
  · exact hmain.1 rfl
  · obtain ⟨q, hq⟩ := hsolvable
    exact absurd hq (hmain.2 rfl q)

/-- C5 witness: on the level `"@$."` BFS terminates solved with the
one-move path, which the theorem certifies as minimal. -/
theorem bfs_exhaustive_optimal_witness :
    (bfsRun 1000 (fun _ => false) 100 (initBState demoState) =
        some (TermReason.solved, some [Direction.RIGHT])) ∧
      (∃ q, solves demoState q) ∧
      ∃ p, (some [Direction.RIGHT] : Option (List Direction)) = some p ∧
        solves demoState p ∧
        ∀ q, solves demoState q → p.length ≤ q.length :=
  ⟨by decide, ⟨[Direction.RIGHT], (move demoState .RIGHT).1, by decide, by decide⟩,
    bfs_exhaustive_optimal demoState 1000 100 (fun _ => false)
      TermReason.solved (some [Direction.RIGHT]) (by decide) (Or.inl rfl)
      ⟨[Direction.RIGHT], (move demoState .RIGHT).1, by decide, by decide⟩⟩

end Sokoban
